import Mathlib

/-!
Verification of the clustering core of `clusters.js` (structural DOM
distance metric and agglomerative single-linkage clustering).

The DOM tree is embedded as a rose tree `Dom`; a node is addressed by a
`Path`, a leaf-first list of child indices (`i :: p` is child `i` of the
node at `p`, `[]` is the root).  `tagName` and the whitespace predicate of
`utils.js` (`isWhitespace`, a per-node property of the tree) are carried
as fields of each tree node.  All functions translate the loops of
`clusters.js`; JavaScript crashes (TypeError, e.g. reading `parentNode`
of `null`) are modelled by `Option` results being `none`.
-/

namespace Fathom

/-- A DOM tree node: tag name, the `isWhitespace` predicate of the
TreeNavigator (whitespace-only text node), and the child list. -/
inductive Dom where
  | node (tag : String) (ws : Bool) (children : List Dom)

/-- A node reference: leaf-first list of child indices. -/
abbrev Path := List Nat

/-- Tag name of a tree node. -/
def Dom.tagOf : Dom → String
  | .node tg _ _ => tg

/-- Whitespace flag of a tree node (models `isWhitespace` of utils.js as a
node attribute). -/
def Dom.wsOf : Dom → Bool
  | .node _ w _ => w

/-- Child list of a tree node. -/
def Dom.childrenOf : Dom → List Dom
  | .node _ _ cs => cs

/-- Look up the node at a path (leaf-first: `i :: p` is child `i` of the
node at `p`). -/
def subtree (t : Dom) : Path → Option Dom
  | [] => some t
  | i :: p =>
    match subtree t p with
    | some (.node _ _ cs) => cs[i]?
    | none => none

/-- Tag name at a path. -/
def tagAt (t : Dom) (p : Path) : Option String :=
  (subtree t p).map Dom.tagOf

/-- Containment: `isSuf a b` iff the node at `a` contains the node at `b`
(inclusive, exactly as DOM `Node.contains`): `a` is a suffix of `b`. -/
def isSuf (a : List Nat) : List Nat → Bool
  | [] => a = []
  | j :: b2 => a = j :: b2 || isSuf a b2

/-- Document order for two paths given root-first (outermost index first):
true iff the first one comes first.  Used only when neither node contains
the other, mirroring `compareDocumentPosition`'s FOLLOWING bit. -/
def revLt : List Nat → List Nat → Bool
  | [], _ => true
  | _, [] => false
  | i :: is2, j :: js =>
    if i < j then true
    else if j < i then false
    else revLt is2 js

/-- Document-order test on leaf-first paths (compare outermost-first). -/
def docBefore (a b : Path) : Bool :=
  revLt a.reverse b.reverse

/-!
`numStrides` (clusters.js lines 13-37).  The forward walk follows
`nextSibling` links (same parent, increasing index), the backward walk
follows `previousSibling` links.  `fwdSteps` receives the parent path,
the index the walk is about to step to and the remaining child list from
that index on, so each `sibling = sibling.nextSibling` step is one
recursion step.
-/

/-- Forward walk of `numStrides`: step through siblings `j, j+1, ...`
(`rest` holds the children of the parent from index `j` on); stop when the
sibling is `right` or the siblings run out.  Returns the accumulated count
of non-whitespace visited siblings and the final value of `sibling`
(`none` models JavaScript `null`). -/
def fwdSteps (q : Path) (r : Option Path) : Nat → List Dom → Nat × Option Path
  | _, [] => (0, none)
  | j, c :: rest =>
    if some (j :: q) = r then (0, some (j :: q))
    else
      let pr := fwdSteps q r (j + 1) rest
      ((if c.wsOf then 0 else 1) + pr.1, pr.2)

/-- Forward walk from the node `lp` itself: fetch its parent's children
and start stepping at the next index.  The root has no siblings, so its
`nextSibling` is immediately `null`. -/
def fwdWalk (t : Dom) (lp : Path) (r : Option Path) : Nat × Option Path :=
  match lp with
  | [] => (0, none)
  | i :: q =>
    match subtree t q with
    | some (.node _ _ cs) => fwdSteps q r (i + 1) (cs.drop (i + 1))
    | none => (0, none)

/-- Backward walk of `numStrides` counted over the first `j` siblings:
walking `previousSibling` from index `j` visits indices `j-1, ..., 0`. -/
def bwdSteps (cs : List Dom) : Nat → Nat
  | 0 => 0
  | j + 1 =>
    (match cs[j]? with
     | some c => if c.wsOf then 0 else 1
     | none => 0) + bwdSteps cs j

/-- Backward walk from `right` to the start of its sibling list
(clusters.js lines 27-34). -/
def bwdWalk (t : Dom) (rp : Path) : Nat :=
  match rp with
  | [] => 0
  | j :: q =>
    match subtree t q with
    | some (.node _ _ cs) => bwdSteps cs j
    | none => 0

/-- `numStrides(left, right)` (clusters.js lines 13-37).  `left` xor
`right` may be `none` (popped from an exhausted ancestor stack).  When the
forward walk does not end exactly on `right` the backward walk runs
(JavaScript `null !== undefined`, so a `none` final sibling never counts
as having reached a real `right`). -/
def numStrides (t : Dom) (l r : Option Path) : Nat :=
  match l with
  | none =>
    match r with
    | none => 0
    | some rp => bwdWalk t rp
  | some lp =>
    if some lp = r then 0
    else
      let fr := fwdWalk t lp r
      fr.1 +
        (match r with
         | none => 0
         | some rp => if fr.2 = some rp then 0 else bwdWalk t rp)

/-!
`distance` (clusters.js lines 45-125).  Costs: DIFFERENT_DEPTH_COST = 2,
DIFFERENT_TAG_COST = 2, SAME_TAG_COST = 1, STRIDE_COST = 1.
-/

/-- Stack of ancestors pushed while ascending from `ca` (exclusive) to the
first ancestor that contains `b` (inclusive): the `while
(!aAncestor.contains(elementB))` loop of clusters.js line 70. -/
def ascendChain (b : Path) : Path → List Path
  | [] => []
  | i :: p => if isSuf (i :: p) b then [] else p :: ascendChain b p

/-- Final value of `aAncestor` after the ascent: the first (lowest)
ancestor of the start node that contains `b`. -/
def lcaOf (b : Path) : Path → Path
  | [] => []
  | i :: p => if isSuf (i :: p) b then i :: p else lcaOf b p

/-- The `do { bAncestor = bAncestor.parentNode; ... } while (bAncestor !==
aAncestor)` loop of clusters.js lines 77-80.  Walking past the root
(taking `parentNode` of `null`) is a TypeError, modelled as `none`. -/
def bDescend (aAnc : Path) : Path → Option (List Path)
  | [] => none
  | _ :: p =>
    if p = aAnc then some [p]
    else (bDescend aAnc p).map (p :: ·)

/-- Steps of the lock-step descent once the left stack is exhausted: each
remaining right entry costs DIFFERENT_DEPTH_COST 2 plus its strides. -/
def costRightOnly (t : Dom) (ms : Bool) : List Path → Nat
  | [] => 0
  | r :: rs =>
    2 + (if ms then numStrides t none (some r) else 0) + costRightOnly t ms rs

/-- The lock-step descent of clusters.js lines 107-122, consuming both
ancestor stacks from the common-ancestor end (the lists are passed
reversed, so `.pop()` becomes taking the head).  Each step costs
SAME_TAG_COST 1 or DIFFERENT_TAG_COST 2 when both sides are present,
DIFFERENT_DEPTH_COST 2 when one side is exhausted, plus the stride count
when `mightStride`. -/
def descendCost (t : Dom) (ms : Bool) : List Path → List Path → Nat
  | [], rs => costRightOnly t ms rs
  | l :: ls, [] =>
    2 + (if ms then numStrides t (some l) none else 0) + descendCost t ms ls []
  | l :: ls, r :: rs =>
    (if tagAt t l = tagAt t r then 1 else 2) +
      (if ms then numStrides t (some l) (some r) else 0) +
      descendCost t ms ls rs

/-- `distance(elementA, elementB)` (clusters.js lines 45-125).
`aAncestors` is `a :: ascendChain b a`, `bAncestors` is `b :: tail`.  The
four branches follow `compareDocumentPosition`: `b` inside `a` (FOLLOWING
and CONTAINED_BY: left `aAncestors`, `mightStride` false); `a` inside `b`
(PRECEDING and CONTAINS: left `bAncestors`, `mightStride` false); `a`
before `b` (FOLLOWING: left `aAncestors`, `mightStride` true); `a` after
`b` (PRECEDING: left `bAncestors`, `mightStride` true).  `none` models the
JavaScript TypeError thrown when the `bAncestors` loop walks past the
root (which happens exactly when `b` is a proper ancestor of `a`). -/
def distance (t : Dom) (a b : Path) : Option Nat :=
  if a = b then some 0
  else
    match bDescend (lcaOf b a) b with
    | none => none
    | some tail =>
      if isSuf a b then
        some (descendCost t false (a :: ascendChain b a).reverse (b :: tail).reverse)
      else if isSuf b a then
        some (descendCost t false (b :: tail).reverse (a :: ascendChain b a).reverse)
      else if docBefore a b then
        some (descendCost t true (a :: ascendChain b a).reverse (b :: tail).reverse)
      else
        some (descendCost t true (b :: tail).reverse (a :: ascendChain b a).reverse)

/-- A two-node tree: a root element with a single child element. -/
def pairTree : Dom :=
  .node "HTML" false [.node "DIV" false []]

/-- Three same-tag sibling paragraphs under one root. -/
def sibTree : Dom :=
  .node "DIV" false [.node "P" false [], .node "P" false [], .node "P" false []]

/-!
The `DistanceMatrix` (clusters.js lines 131-256).  JavaScript `Map`s keyed
by cluster object identity are modelled by an arena: each cluster object
is an entry of `arena` and is named by its index (its handle).  A `Map` is
an insertion-ordered association list; `Map.set` of a fresh key appends,
`Map.delete` removes the key's entry.
-/

/-- A cluster object: the nested array `[el]` / `[clusterA, clusterB]`. -/
inductive JCluster where
  | leaf (p : Path)
  | pair (a b : JCluster)
  deriving DecidableEq

/-- `wu.flatten(false, cluster)`: the nested array flattened to its leaf
nodes, left to right. -/
def flattenJC : JCluster → List Path
  | .leaf p => [p]
  | .pair a b => flattenJC a ++ flattenJC b

/-- An inner row of the matrix: insertion-ordered (innerKey, distance). -/
abbrev Row := List (Nat × Nat)

/-- `Map.get`: first entry with the given key. -/
def alookup : List (Nat × α) → Nat → Option α
  | [], _ => none
  | (k, v) :: rest, h => if k = h then some v else alookup rest h

/-- `Map.delete`: drop the entry with the given key. -/
def aerase : List (Nat × α) → Nat → List (Nat × α)
  | [], _ => []
  | (k, v) :: rest, h => if k = h then rest else (k, v) :: aerase rest h

/-- The matrix state: the cluster arena, the insertion-ordered sparse
lower-triangular table `_matrix`, and the `_numClusters` counter. -/
structure DM where
  arena : List JCluster
  rows : List (Nat × Row)
  nclusters : Nat
  deriving DecidableEq

/-- Outer keys of the table in insertion order. -/
def keysOf (rows : List (Nat × Row)) : List Nat :=
  rows.map Prod.fst

/-- Build one new row at construction time: the distances from the new
element to every previously inserted singleton, in insertion order
(clusters.js lines 156-160).  `none` models a `distance` crash. -/
def buildRow (t : Dom) (el : Path) : List (Nat × Path) → Option Row
  | [] => some []
  | (h, p) :: rest =>
    match distance t el p, buildRow t el rest with
    | some d, some tail => some ((h, d) :: tail)
    | _, _ => none

/-- The constructor loop of clusters.js lines 155-162: insert each element
as a singleton cluster with a row of distances to all earlier ones.
`prev` accumulates (handle, element) of the already-inserted singletons in
insertion order. -/
def initRows (t : Dom) : List Path → Nat → List (Nat × Path) → Option (List (Nat × Row))
  | [], _, _ => some []
  | el :: rest, h, prev =>
    match buildRow t el prev, initRows t rest (h + 1) (prev ++ [(h, el)]) with
    | some row, some tail => some ((h, row) :: tail)
    | _, _ => none

/-- `new DistanceMatrix(elements)` (clusters.js lines 132-164). -/
def initMatrix (t : Dom) (els : List Path) : Option DM :=
  match initRows t els 0 [] with
  | none => none
  | some rows =>
    some { arena := els.map JCluster.leaf, rows := rows, nclusters := els.length }

/-- `_cachedDistance(clusterA, clusterB)` (clusters.js lines 189-195):
direct lookup, retried in the opposite triangular direction.  `none`
covers both a missing row (TypeError in JavaScript) and a pair stored in
neither direction (`undefined`). -/
def cachedDistance (rows : List (Nat × Row)) (a b : Nat) : Option Nat :=
  (alookup rows a).bind (fun ra =>
    match alookup ra b with
    | some d => some d
    | none => (alookup rows b).bind (fun rb => alookup rb a))

/-- The new-row loop of `merge` (clusters.js lines 222-228): for every
other live cluster, the minimum of the two cached distances.  `none`
models the `NaN`/TypeError outcome when a cached lookup fails. -/
def newRowFor (rows : List (Nat × Row)) (a b : Nat) : List (Nat × Row) → Option Row
  | [] => some []
  | (k, _) :: rest =>
    if k = a ∨ k = b then newRowFor rows a b rest
    else
      match cachedDistance rows a k, cachedDistance rows b k,
            newRowFor rows a b rest with
      | some d1, some d2, some tail => some ((k, min d1 d2) :: tail)
      | _, _, _ => none

/-- `merge(clusterA, clusterB)` (clusters.js lines 198-245): build the new
row, delete both rows, delete both inner keys everywhere, append the new
cluster `[clusterA, clusterB]` (a fresh arena entry, handle
`arena.length`) with its row, decrement `_numClusters`. -/
def mergeDM (m : DM) (a b : Nat) : Option DM :=
  match newRowFor m.rows a b m.rows, m.arena[a]?, m.arena[b]? with
  | some newRow, some ca, some cb =>
    let rows1 := aerase (aerase m.rows a) b
    let rows2 := rows1.map (fun kr => (kr.1, aerase (aerase kr.2 a) b))
    some { arena := m.arena ++ [JCluster.pair ca cb]
           rows := rows2 ++ [(m.arena.length, newRow)]
           nclusters := m.nclusters - 1 }
  | _, _, _ => none

/-- All stored entries `(outerKey, innerKey, distance)` in scan order:
outer rows in table-insertion order, inner entries in row-insertion order
(the generator of clusters.js lines 176-182). -/
def entriesOf : List (Nat × Row) → List (Nat × Nat × Nat)
  | [] => []
  | (h, r) :: rest => r.map (fun e => (h, e.1, e.2)) ++ entriesOf rest

/-- Number of stored pair entries of the matrix. -/
def entriesCount (m : DM) : Nat :=
  (entriesOf m.rows).length

/-- Fold of the `min` helper: keep the current element unless a later one
is strictly smaller, so the first minimal element wins ties. -/
def minEntry : (Nat × Nat × Nat) → List (Nat × Nat × Nat) → Nat × Nat × Nat
  | cur, [] => cur
  | cur, e :: rest => minEntry (if e.2.2 < cur.2.2 then e else cur) rest

/-- Modelled from the spec: the `min(iterable, by)` helper of the
repository's utils.js, which is not under src/.  Per the spec it returns
the entry whose key is minimal, ties broken by the fixed traversal order:
the first minimal entry encountered wins; on an empty iterable it yields
nothing. -/
def minByKey : List (Nat × Nat × Nat) → Option (Nat × Nat × Nat)
  | [] => none
  | e :: rest => some (minEntry e rest)

/-- `closest()` (clusters.js lines 168-184): `none` models the thrown
`Error` when fewer than two clusters are live (and the degenerate
`undefined` of `min` over an empty scan, on which the driver would also
crash). -/
def closestDM (m : DM) : Option (Nat × Nat × Nat) :=
  if m.nclusters < 2 then none else minByKey (entriesOf m.rows)

/-- `clusters()` read-out (clusters.js lines 252-255): flatten every live
cluster, rows in table order. -/
def clustersOf (m : DM) : List (List Path) :=
  m.rows.map (fun kr =>
    match m.arena[kr.1]? with
    | some c => flattenJC c
    | none => [])

/-- The driver loop of clusters.js lines 276-278: while more than one
cluster is live and the closest pair is strictly nearer than `tooFar`,
merge it.  `tooFar` is a `WithTop Nat` so that `⊤` models `Infinity`.
Each iteration consumes one fuel; the caller passes enough fuel
(`numClusters` only decreases). -/
def clusterLoop : Nat → DM → WithTop Nat → Option DM
  | 0, m, _ => some m
  | fuel + 1, m, tooFar =>
    if 1 < m.nclusters then
      match closestDM m with
      | none => none
      | some e =>
        if (e.2.2 : WithTop Nat) < tooFar then
          match mergeDM m e.1 e.2.1 with
          | none => none
          | some m2 => clusterLoop fuel m2 tooFar
        else some m
    else some m

/-- `clusters(elements, tooFar)` (clusters.js lines 272-281). -/
def clustersRun (t : Dom) (els : List Path) (tooFar : WithTop Nat) : Option (List (List Path)) :=
  match initMatrix t els with
  | none => none
  | some m =>
    match clusterLoop els.length m tooFar with
    | none => none
    | some m2 => some (clustersOf m2)

/-!
Well-formedness of a matrix state: the lower-triangular invariant (each
row's inner keys are exactly the keys inserted before it, in insertion
order), distinct keys, the counter in sync with the table, and every key
naming an arena entry.
-/

/-- Triangular table check: `seen` are the keys inserted so far. -/
def triB : List Nat → List (Nat × Row) → Bool
  | _, [] => true
  | seen, (h, r) :: rest => decide (r.map Prod.fst = seen) && triB (seen ++ [h]) rest

/-- Well-formed matrix state. -/
structure WFDM (m : DM) : Prop where
  tri : triB [] m.rows = true
  nodup : (keysOf m.rows).Nodup
  count : m.nclusters = m.rows.length
  valid : ∀ k ∈ keysOf m.rows, k < m.arena.length

/-!
Declarative descriptions of the two stride walks, used to state what the
loops of `numStrides` compute.
-/

/-- Non-skippable nodes the forward walk counts when it lands on `right`:
the siblings strictly between index `i` and index `j` of the child list. -/
def fwdBetween (cs : List Dom) (i j : Nat) : Nat :=
  (((cs.drop (i + 1)).take (j - (i + 1))).filter (fun c => !c.wsOf)).length

/-- Non-skippable nodes the forward walk counts when it runs out of
siblings: everything after index `i`. -/
def fwdToEnd (cs : List Dom) (i : Nat) : Nat :=
  ((cs.drop (i + 1)).filter (fun c => !c.wsOf)).length

/-- Non-skippable nodes the backward walk counts: every sibling before
index `j`. -/
def bwdBefore (cs : List Dom) (j : Nat) : Nat :=
  ((cs.take j).filter (fun c => !c.wsOf)).length

/-- Concrete witness elements: the three sibling paragraphs of `sibTree`. -/
def wEls : List Path := [[0], [1], [2]]

/-- Concrete well-formed matrix over `wEls` (used by witnesses). -/
def wM : DM :=
  match initMatrix sibTree wEls with
  | some m => m
  | none => { arena := [], rows := [], nclusters := 0 }

/-- Concrete matrix after one merge (used by witnesses). -/
def wM2 : DM :=
  match mergeDM wM 0 1 with
  | some m => m
  | none => { arena := [], rows := [], nclusters := 0 }

/-- Key-list erasure (same first-occurrence discipline as `aerase`). -/
def nerase : List Nat → Nat → List Nat
  | [], _ => []
  | k :: rest, h => if k = h then rest else k :: nerase rest h

/-- Node coverage: every input node appears in some live cluster. -/
def INVC (els : List Path) (m : DM) : Prop :=
  ∀ p ∈ els, ∃ c ∈ clustersOf m, p ∈ c

/-!  Basic lemmas about the association-list operations.  -/

theorem alookup_isSome_iff {l : List (Nat × α)} {k : Nat} :
    (alookup l k).isSome = true ↔ k ∈ l.map Prod.fst := by
  induction l with
  | nil => simp [alookup]
  | cons p rest ih =>
    obtain ⟨k0, v0⟩ := p
    by_cases h : k0 = k <;> simp [alookup, h, ih]
    exact fun h2 => (h h2.symm).elim

theorem alookup_eq_some_mem {l : List (Nat × α)} {k : Nat} {v : α}
    (h : alookup l k = some v) : (k, v) ∈ l := by
  induction l with
  | nil => simp [alookup] at h
  | cons p rest ih =>
    obtain ⟨k0, v0⟩ := p
    by_cases hk : k0 = k
    · subst hk
      simp [alookup] at h
      simp [h]
    · simp [alookup, hk] at h
      exact List.mem_cons_of_mem _ (ih h)

theorem alookup_of_mem_nodup {l : List (Nat × α)} {k : Nat} {v : α}
    (hd : (l.map Prod.fst).Nodup) (h : (k, v) ∈ l) : alookup l k = some v := by
  induction l with
  | nil => simp at h
  | cons p rest ih =>
    obtain ⟨k0, v0⟩ := p
    rw [List.map_cons, List.nodup_cons] at hd
    rcases List.mem_cons.1 h with h1 | h1
    · rw [Prod.mk.injEq] at h1
      simp [alookup, h1.1.symm, h1.2]
    · have hk0 : k0 ≠ k := by
        intro hk
        subst hk
        exact hd.1 (List.mem_map.2 ⟨(k0, v), h1, rfl⟩)
      simp [alookup, hk0, ih hd.2 h1]

theorem alookup_append_left {l1 l2 : List (Nat × α)} {k : Nat} {v : α}
    (h : alookup l1 k = some v) : alookup (l1 ++ l2) k = some v := by
  induction l1 with
  | nil => simp [alookup] at h
  | cons p rest ih =>
    obtain ⟨k0, v0⟩ := p
    by_cases hk : k0 = k <;> simp [alookup, hk] at h ⊢ <;> simp_all [ih]

theorem alookup_append_right {l1 l2 : List (Nat × α)} {k : Nat}
    (h : k ∉ l1.map Prod.fst) : alookup (l1 ++ l2) k = alookup l2 k := by
  induction l1 with
  | nil => rfl
  | cons p rest ih =>
    obtain ⟨k0, v0⟩ := p
    rw [List.map_cons] at h
    have h1 : k0 ≠ k := fun hk => h (by simp [hk])
    have h2 : k ∉ rest.map Prod.fst := fun hk => h (List.mem_cons_of_mem _ hk)
    simp [alookup, h1, ih h2]

theorem keysOf_aerase (l : List (Nat × α)) (k : Nat) :
    ((aerase l k).map Prod.fst) = nerase (l.map Prod.fst) k := by
  induction l with
  | nil => rfl
  | cons p rest ih =>
    obtain ⟨k0, v0⟩ := p
    by_cases hk : k0 = k <;> simp [aerase, nerase, hk, ih]

theorem mem_aerase_of_mem {l : List (Nat × α)} {x : Nat × α} {k : Nat}
    (hx : x ∈ l) (hne : x.1 ≠ k) : x ∈ aerase l k := by
  induction l with
  | nil => simp at hx
  | cons p rest ih =>
    obtain ⟨k0, v0⟩ := p
    by_cases hk : k0 = k
    · subst hk
      rcases List.mem_cons.1 hx with h1 | h1
      · exact absurd (congrArg Prod.fst h1) hne
      · simpa [aerase] using h1
    · rcases List.mem_cons.1 hx with h1 | h1
      · simp [aerase, hk, h1]
      · simp [aerase, hk]
        right
        exact ih h1

theorem aerase_of_not_mem {l : List (Nat × α)} {k : Nat}
    (h : k ∉ l.map Prod.fst) : aerase l k = l := by
  induction l with
  | nil => rfl
  | cons p rest ih =>
    obtain ⟨k0, v0⟩ := p
    rw [List.map_cons] at h
    have h1 : k0 ≠ k := fun hk => h (by simp [hk])
    have h2 : k ∉ rest.map Prod.fst := fun hk => h (List.mem_cons_of_mem _ hk)
    simp [aerase, h1, ih h2]

theorem length_aerase_of_mem {l : List (Nat × α)} {k : Nat}
    (h : k ∈ l.map Prod.fst) : (aerase l k).length + 1 = l.length := by
  induction l with
  | nil => simp at h
  | cons p rest ih =>
    obtain ⟨k0, v0⟩ := p
    by_cases hk : k0 = k
    · simp [aerase, hk]
    · rw [List.map_cons, List.mem_cons] at h
      rcases h with h1 | h1
      · exact absurd h1.symm hk
      · have := ih h1
        simp [aerase, hk]
        omega

theorem nerase_of_not_mem {s : List Nat} {a : Nat} (h : a ∉ s) : nerase s a = s := by
  induction s with
  | nil => rfl
  | cons x rest ih =>
    have h1 : x ≠ a := fun hx => h (by simp [hx])
    have h2 : a ∉ rest := fun hr => h (List.mem_cons_of_mem _ hr)
    simp [nerase, h1, ih h2]

theorem nerase_append_of_ne {s : List Nat} {h a : Nat} (hne : h ≠ a) :
    nerase (s ++ [h]) a = nerase s a ++ [h] := by
  induction s with
  | nil => simp [nerase, hne]
  | cons x rest ih =>
    by_cases hx : x = a <;> simp [nerase, hx, ih]

theorem nerase_snoc_self {s : List Nat} {a : Nat} (h : a ∉ s) :
    nerase (s ++ [a]) a = s := by
  induction s with
  | nil => simp [nerase]
  | cons x rest ih =>
    have h1 : x ≠ a := fun hx => h (by simp [hx])
    have h2 : a ∉ rest := fun hr => h (List.mem_cons_of_mem _ hr)
    simp [nerase, h1, ih h2]

theorem mem_nerase {s : List Nat} {a k : Nat} (h : k ∈ nerase s a) : k ∈ s := by
  induction s with
  | nil => simp [nerase] at h
  | cons x rest ih =>
    by_cases hx : x = a
    · simp [nerase, hx] at h
      simp [h]
    · simp [nerase, hx] at h
      rcases h with h1 | h1
      · simp [h1]
      · simp [ih h1]

theorem mem_nerase_of_mem {s : List Nat} {a k : Nat} (hs : k ∈ s) (hk : k ≠ a) :
    k ∈ nerase s a := by
  induction s with
  | nil => simp at hs
  | cons x rest ih =>
    by_cases hx : x = a
    · subst hx
      rcases List.mem_cons.1 hs with h1 | h1
      · exact absurd h1 hk
      · simpa [nerase] using h1
    · rcases List.mem_cons.1 hs with h1 | h1
      · simp [nerase, hx, h1]
      · simp [nerase, hx]
        right
        exact ih h1

theorem nodup_nerase {s : List Nat} (hd : s.Nodup) (a : Nat) : (nerase s a).Nodup := by
  induction s with
  | nil => simp [nerase]
  | cons x rest ih =>
    rw [List.nodup_cons] at hd
    by_cases hx : x = a
    · simpa [nerase, hx] using hd.2
    · simp only [nerase, if_neg hx, List.nodup_cons]
      exact ⟨fun hm => hd.1 (mem_nerase hm), ih hd.2⟩

theorem not_mem_nerase_self {s : List Nat} (hd : s.Nodup) (a : Nat) :
    a ∉ nerase s a := by
  induction s with
  | nil => simp [nerase]
  | cons x rest ih =>
    rw [List.nodup_cons] at hd
    by_cases hx : x = a
    · subst hx
      simpa [nerase] using hd.1
    · simp only [nerase, if_neg hx, List.mem_cons]
      rintro (h1 | h1)
      · exact hx h1.symm
      · exact ih hd.2 h1

/-!  Lemmas about the containment test and the ancestor chains.  -/

theorem isSuf_refl (a : List Nat) : isSuf a a = true := by
  cases a with
  | nil => simp [isSuf]
  | cons j b2 => simp [isSuf]

theorem isSuf_length_le {a b : List Nat} (h : isSuf a b = true) :
    a.length ≤ b.length := by
  induction b with
  | nil =>
    have ha : a = [] := by simpa [isSuf] using h
    simp [ha]
  | cons j b2 ih =>
    rw [isSuf, Bool.or_eq_true, decide_eq_true_eq] at h
    rcases h with h1 | h1
    · simp [h1]
    · have := ih h1
      simp only [List.length_cons]
      omega

theorem isSuf_cons_self (j : Nat) (b : List Nat) : isSuf b (j :: b) = true := by
  simp [isSuf, isSuf_refl]

theorem isSuf_of_long {a b : List Nat} (h : b.length < a.length) :
    isSuf a b = false := by
  cases hc : isSuf a b with
  | false => rfl
  | true => exact absurd (isSuf_length_le hc) (by omega)

theorem ascendChain_of_suf {b ca : Path} (h : isSuf ca b = true) :
    ascendChain b ca = [] := by
  cases ca with
  | nil => rfl
  | cons i p => simp [ascendChain, h]

theorem lcaOf_of_suf {b ca : Path} (h : isSuf ca b = true) :
    lcaOf b ca = ca := by
  cases ca with
  | nil => rfl
  | cons i p => simp [lcaOf, h]

theorem bDescend_ne_nil {aAnc cb : Path} {l : List Path}
    (h : bDescend aAnc cb = some l) : l ≠ [] := by
  induction cb generalizing l with
  | nil => simp [bDescend] at h
  | cons x p ih =>
    by_cases hp : p = aAnc
    · simp [bDescend, hp] at h
      simp [← h]
    · simp only [bDescend, if_neg hp, Option.map_eq_some'] at h
      obtain ⟨l2, _, hl⟩ := h
      simp [← hl]

/-!  The forward and backward stride walks versus their declarative
descriptions.  -/

theorem fwdSteps_reach (q : Path) (cs' : List Dom) :
    ∀ j0 hj, j0 ≤ hj → hj - j0 < cs'.length →
      fwdSteps q (some (hj :: q)) j0 cs' =
        (((cs'.take (hj - j0)).filter (fun c => !c.wsOf)).length, some (hj :: q)) := by
  induction cs' with
  | nil =>
    intro j0 hj _ hlt
    simp at hlt
  | cons c rest ih =>
    intro j0 hj hle hlt
    by_cases he : j0 = hj
    · subst he
      simp [fwdSteps]
    · have hlt2 : j0 < hj := lt_of_le_of_ne hle he
      have hne : ¬(some (j0 :: q) = some (hj :: q)) := by simp; omega
      have harith : hj - j0 = (hj - (j0 + 1)) + 1 := by omega
      have ihr := ih (j0 + 1) hj (by omega) (by simp at hlt ⊢; omega)
      simp only [fwdSteps, if_neg hne, ihr]
      rw [harith, List.take_succ_cons, List.filter_cons]
      by_cases hw : c.wsOf <;> simp [hw] <;> omega

theorem fwdSteps_miss (q : Path) (r : Option Path) (cs' : List Dom) :
    ∀ j0, (∀ jj, j0 ≤ jj → some (jj :: q) ≠ r) →
      fwdSteps q r j0 cs' = ((cs'.filter (fun c => !c.wsOf)).length, none) := by
  induction cs' with
  | nil => intro j0 _; rfl
  | cons c rest ih =>
    intro j0 hmiss
    have hne : ¬(some (j0 :: q) = r) := hmiss j0 le_rfl
    have ihr := ih (j0 + 1) (fun jj hjj => hmiss jj (by omega))
    simp only [fwdSteps, if_neg hne, ihr, List.filter_cons]
    by_cases hw : c.wsOf <;> simp [hw] <;> omega

theorem bwdSteps_eq_bwdBefore (cs : List Dom) : ∀ j, bwdSteps cs j = bwdBefore cs j := by
  intro j
  induction j with
  | zero => simp [bwdSteps, bwdBefore]
  | succ j ih =>
    rw [bwdSteps, ih, bwdBefore, bwdBefore, List.take_succ, List.filter_append,
      List.length_append]
    cases h : cs[j]? with
    | none => simp
    | some c => by_cases hw : c.wsOf <;> simp [hw] <;> omega

/-- The two sibling walks of `numStrides` for two real nodes under the
same parent: if `right` is at or after `left` the forward walk lands on
it and only the strictly-between non-whitespace siblings count; otherwise
the forward walk runs out and the backward walk adds every
non-whitespace sibling before `right`. -/
theorem numStrides_same_parent (t : Dom) (q : Path) (tg : String) (w : Bool)
    (cs : List Dom) (hsub : subtree t q = some (.node tg w cs))
    (i j : Nat) (hj : j < cs.length) :
    numStrides t (some (i :: q)) (some (j :: q)) =
      if i ≤ j then fwdBetween cs i j else fwdToEnd cs i + bwdBefore cs j := by
  by_cases he : i = j
  · subst he
    simp [numStrides, fwdBetween]
  · have hpne : ¬(some (i :: q) = some (j :: q)) := by simp [he]
    rcases lt_or_gt_of_ne he with hlt | hgt
    · have hreach := fwdSteps_reach q (cs.drop (i + 1)) (i + 1) j (by omega)
        (by simp; omega)
      simp only [numStrides, if_neg hpne, fwdWalk, hsub, hreach]
      simp [fwdBetween, hlt, Nat.le_of_lt hlt]
    · have hmiss := fwdSteps_miss q (some (j :: q)) (cs.drop (i + 1)) (i + 1)
        (fun jj hjj => by simp; omega)
      simp only [numStrides, if_neg hpne, fwdWalk, hsub, hmiss]
      have : ¬(i ≤ j) := by omega
      simp [this, fwdToEnd, bwdWalk, hsub, bwdSteps_eq_bwdBefore]

/-- The two sibling walks of `numStrides` for two real nodes under
different parents: the forward walk can never land on `right`, so it
counts everything after `left` and the backward walk counts everything
before `right`. -/
theorem numStrides_diff_parent (t : Dom) (ql qr : Path) (tgl tgr : String)
    (wl wr : Bool) (csl csr : List Dom)
    (hsubl : subtree t ql = some (.node tgl wl csl))
    (hsubr : subtree t qr = some (.node tgr wr csr))
    (i j : Nat) (hq : ql ≠ qr) :
    numStrides t (some (i :: ql)) (some (j :: qr)) = fwdToEnd csl i + bwdBefore csr j := by
  have hpne : ¬(some (i :: ql) = some (j :: qr)) := by simp [hq]
  have hmiss := fwdSteps_miss ql (some (j :: qr)) (csl.drop (i + 1)) (i + 1)
    (fun jj _ => by simp [hq])
  simp only [numStrides, if_neg hpne, fwdWalk, hsubl, hmiss]
  simp [fwdToEnd, bwdWalk, hsubr, bwdSteps_eq_bwdBefore]

/-!  Evaluation of `distance` on sibling pairs, and its lower bound.  -/

theorem revLt_snoc (xs : List Nat) {i j : Nat} (hne : i ≠ j) :
    revLt (xs ++ [i]) (xs ++ [j]) = decide (i < j) := by
  induction xs with
  | nil =>
    rcases lt_or_gt_of_ne hne with h | h
    · simp [revLt, h]
    · simp [revLt, h, Nat.lt_asymm h]
  | cons x xs ih => simp [revLt, ih]

theorem fwdBetween_zero {cs : List Dom} {lo hi : Nat}
    (h : ∀ k, lo < k → k < hi → ∀ c, cs[k]? = some c → c.wsOf = true) :
    fwdBetween cs lo hi = 0 := by
  rw [fwdBetween, List.length_eq_zero, List.filter_eq_nil_iff]
  intro a ha
  rw [List.mem_iff_getElem] at ha
  obtain ⟨n, hn, ha⟩ := ha
  have hn2 : n < hi - (lo + 1) ∧ n < cs.length - (lo + 1) := by
    simpa [List.length_take, List.length_drop, lt_min_iff] using hn
  simp only [List.getElem_take, List.getElem_drop] at ha
  have hidx : lo + 1 + n < cs.length := by omega
  have hsome : cs[lo + 1 + n]? = some a := by
    rw [List.getElem?_eq_getElem hidx, ha]
  have hws := h (lo + 1 + n) (by omega) (by omega) a hsome
  simp [hws]

theorem isSuf_cons_cons_ne {i j : Nat} {q : Path} (hne : i ≠ j) :
    isSuf (i :: q) (j :: q) = false := by
  have h1 : isSuf (i :: q) q = false := isSuf_of_long (by simp)
  rw [isSuf, h1]
  simp [hne]

/-- `distance` on two distinct siblings: SAME_TAG_COST 1 for the shared
parent level, the tag cost for the sibling level, plus the forward stride
count between them. -/
theorem distance_sibs (t : Dom) (q : Path) (tg : String) (w : Bool) (cs : List Dom)
    (hsub : subtree t q = some (.node tg w cs)) (i j : Nat)
    (hi : i < cs.length) (hj : j < cs.length) (hne : i ≠ j) :
    distance t (i :: q) (j :: q) =
      some ((if tagAt t (min i j :: q) = tagAt t (max i j :: q) then 2 else 3)
        + fwdBetween cs (min i j) (max i j)) := by
  have hab : (i :: q) ≠ (j :: q) := by simp [hne]
  have hsab : isSuf (i :: q) (j :: q) = false := isSuf_cons_cons_ne hne
  have hsba : isSuf (j :: q) (i :: q) = false := isSuf_cons_cons_ne (Ne.symm hne)
  have hasc : ascendChain (j :: q) (i :: q) = [q] := by
    simp [ascendChain, hsab, ascendChain_of_suf (isSuf_cons_self j q)]
  have hlca : lcaOf (j :: q) (i :: q) = q := by
    simp [lcaOf, hsab, lcaOf_of_suf (isSuf_cons_self j q)]
  have hbd : bDescend q (j :: q) = some [q] := by simp [bDescend]
  have hdb : docBefore (i :: q) (j :: q) = decide (i < j) := by
    rw [docBefore, List.reverse_cons, List.reverse_cons]
    exact revLt_snoc q.reverse hne
  have htagq : tagAt t q = tagAt t q := rfl
  rw [distance, if_neg hab, hlca, hbd]
  have hq0 : numStrides t (some q) (some q) = 0 := by simp [numStrides]
  rcases lt_or_gt_of_ne hne with hlt | hgt
  · have hns := numStrides_same_parent t q tg w cs hsub i j hj
    rw [if_pos (Nat.le_of_lt hlt)] at hns
    rw [hsab, hsba, hdb]
    simp only [Bool.false_eq_true, if_false, decide_eq_true_eq, if_pos hlt, hasc]
    simp only [List.reverse_cons, List.reverse_singleton, List.reverse_nil,
      List.nil_append, List.singleton_append, List.cons_append]
    rw [descendCost, descendCost, descendCost, if_pos htagq, hq0, hns]
    rw [Nat.min_eq_left (Nat.le_of_lt hlt), Nat.max_eq_right (Nat.le_of_lt hlt)]
    by_cases htg : tagAt t (i :: q) = tagAt t (j :: q) <;>
      simp [htg, costRightOnly] <;> omega
  · have hns := numStrides_same_parent t q tg w cs hsub j i hi
    rw [if_pos (Nat.le_of_lt hgt)] at hns
    rw [hsab, hsba, hdb]
    simp only [Bool.false_eq_true, if_false, decide_eq_true_eq,
      if_neg (Nat.lt_asymm hgt), hasc]
    simp only [List.reverse_cons, List.reverse_singleton, List.reverse_nil,
      List.nil_append, List.singleton_append, List.cons_append]
    rw [descendCost, descendCost, descendCost, if_pos htagq, hq0, hns]
    rw [Nat.min_eq_right (Nat.le_of_lt hgt), Nat.max_eq_left (Nat.le_of_lt hgt)]
    by_cases htg : tagAt t (j :: q) = tagAt t (i :: q) <;>
      simp [htg, costRightOnly] <;> omega

theorem costRightOnly_ge (t : Dom) (ms : Bool) :
    ∀ rs : List Path, rs.length ≤ costRightOnly t ms rs := by
  intro rs
  induction rs with
  | nil => simp [costRightOnly]
  | cons r rs ih =>
    rw [costRightOnly]
    simp
    omega

theorem descendCost_ge (t : Dom) (ms : Bool) :
    ∀ ls rs : List Path, max ls.length rs.length ≤ descendCost t ms ls rs := by
  intro ls
  induction ls with
  | nil =>
    intro rs
    have := costRightOnly_ge t ms rs
    rw [descendCost]
    simp
    omega
  | cons l ls ihl =>
    intro rs
    cases rs with
    | nil =>
      have := ihl []
      rw [descendCost]
      simp at this ⊢
      omega
    | cons r rs =>
      have := ihl rs
      rw [descendCost]
      have h1 : (1 : Nat) ≤ if tagAt t l = tagAt t r then 1 else 2 := by
        split <;> omega
      simp at this ⊢
      omega

/-!  The claims about `distance`.  -/

/-- Claim C1: the claim asserts `distance(a, b) = distance(b, a)` for all
node pairs of one shared tree, both calls returning, even when one node
is an ancestor of the other.  The code violates it: on the two-node tree
`pairTree`, `distance(root, child)` returns 3 but `distance(child, root)`
crashes (the `bAncestors` do-while walks past the root and dereferences
`null`), so the two calls do not both return, let alone agree. -/
theorem claim_C1 :
    distance pairTree [] [0] = some 3 ∧ distance pairTree [0] [] = none :=
  ⟨rfl, rfl⟩

/-- Claim C2: the claim asserts `distance` terminates and returns a number
for every pair of nodes of one well-formed tree, in particular that the
`bChain` construction terminates when `nodeB` is an ancestor of `nodeA`.
The code violates it: on `pairTree` the root `[]` is an ancestor of the
child `[0]` (`isSuf [] [0]`), yet `distance(child, root)` fails — the
do-while building `bAncestors` steps upward from `root` first and can
never meet `aAncestor = root` again, so it dereferences `null`. -/
theorem claim_C2 :
    isSuf [] [0] = true ∧ distance pairTree [0] [] = none :=
  ⟨rfl, rfl⟩

/-- Claim C3 counterexample: two distinct same-tag sibling paragraphs of
`sibTree` with zero nodes between them have distance 2, not 1 as the
claim states. -/
theorem claim_C3_counterexample :
    tagAt sibTree [0] = tagAt sibTree [1] ∧
      distance sibTree [0] [1] = some 2 ∧ distance sibTree [0] [1] ≠ some 1 :=
  ⟨rfl, rfl, by decide⟩

/-- Claim C3 as amended: for every two distinct sibling nodes with the
same tag and zero non-skippable nodes between them, `distance` returns
exactly 2 — the lock-step descent charges SAME_TAG_COST 1 at the shared
parent level in addition to SAME_TAG_COST 1 at the siblings' own level,
and the stride term is 0. -/
theorem claim_C3 (t : Dom) (q : Path) (tg : String) (w : Bool) (cs : List Dom)
    (hsub : subtree t q = some (.node tg w cs)) (i j : Nat)
    (hi : i < cs.length) (hj : j < cs.length) (hne : i ≠ j)
    (htag : tagAt t (i :: q) = tagAt t (j :: q))
    (hws : ∀ k, min i j < k → k < max i j → ∀ c, cs[k]? = some c → c.wsOf = true) :
    distance t (i :: q) (j :: q) = some 2 := by
  rw [distance_sibs t q tg w cs hsub i j hi hj hne, fwdBetween_zero hws]
  have htg2 : tagAt t (min i j :: q) = tagAt t (max i j :: q) := by
    rcases lt_or_gt_of_ne hne with hlt | hgt
    · rwa [Nat.min_eq_left (Nat.le_of_lt hlt), Nat.max_eq_right (Nat.le_of_lt hlt)]
    · rw [Nat.min_eq_right (Nat.le_of_lt hgt), Nat.max_eq_left (Nat.le_of_lt hgt)]
      exact htag.symm
  simp [htg2]

/-- Witness for claim C3 at a concrete input: the first two paragraphs of
`sibTree`. -/
theorem claim_C3_witness :
    subtree sibTree [] =
        some (.node "DIV" false
          [.node "P" false [], .node "P" false [], .node "P" false []]) ∧
      (0 : Nat) ≠ 1 ∧ tagAt sibTree [0] = tagAt sibTree [1] ∧
      distance sibTree [0] [1] = some 2 :=
  ⟨rfl, by decide, rfl,
    claim_C3 sibTree [] "DIV" false
      [.node "P" false [], .node "P" false [], .node "P" false []]
      rfl 0 1 (by decide) (by decide) (by decide) rfl
      (fun k h1 h2 => ((by omega : False).elim))⟩

/-- Claim C10: whenever `distance` returns on two distinct nodes, the
returned value is at least 2: both ancestor stacks end at the common
ancestor, `bAncestors` has at least two entries, so the lock-step descent
runs at least two steps, each adding at least 1. -/
theorem claim_C10 (t : Dom) (a b : Path) (d : Nat)
    (h : distance t a b = some d) (hne : a ≠ b) : 2 ≤ d := by
  rw [distance, if_neg hne] at h
  split at h
  · exact absurd h (by simp)
  · rename_i tail hbd
    have htail : 1 ≤ tail.length :=
      List.length_pos.2 (bDescend_ne_nil hbd)
    have hblen : 2 ≤ ((b :: tail).reverse : List Path).length := by
      simp
      omega
    by_cases h1 : isSuf a b = true
    · rw [if_pos h1, Option.some_inj] at h
      subst h
      exact le_trans (le_trans hblen (le_max_right _ _)) (descendCost_ge t _ _ _)
    · rw [if_neg h1] at h
      by_cases h2 : isSuf b a = true
      · rw [if_pos h2, Option.some_inj] at h
        subst h
        exact le_trans (le_trans hblen (le_max_left _ _)) (descendCost_ge t _ _ _)
      · rw [if_neg h2] at h
        by_cases h3 : docBefore a b = true
        · rw [if_pos h3, Option.some_inj] at h
          subst h
          exact le_trans (le_trans hblen (le_max_right _ _)) (descendCost_ge t _ _ _)
        · rw [if_neg h3, Option.some_inj] at h
          subst h
          exact le_trans (le_trans hblen (le_max_left _ _)) (descendCost_ge t _ _ _)

/-- Witness for claim C10 at a concrete input: the first two paragraphs
of `sibTree`. -/
theorem claim_C10_witness :
    distance sibTree [0] [1] = some 2 ∧ ([0] : Path) ≠ [1] ∧ 2 ≤ 2 :=
  ⟨rfl, by decide, claim_C10 sibTree [0] [1] 2 rfl (by decide)⟩

/-!  The triangular-table invariant.  -/

theorem triB_cons {s : List Nat} {h : Nat} {r : Row} {rest : List (Nat × Row)} :
    triB s ((h, r) :: rest) = true ↔
      r.map Prod.fst = s ∧ triB (s ++ [h]) rest = true := by
  simp [triB]

/-- Under the triangular invariant, a row's inner keys are exactly the
keys inserted before it. -/
theorem tri_mem_decomp {s : List Nat} {rows : List (Nat × Row)}
    (ht : triB s rows = true) {k : Nat} {r : Row} (hm : (k, r) ∈ rows) :
    ∃ s2 s3, keysOf rows = s2 ++ k :: s3 ∧ r.map Prod.fst = s ++ s2 := by
  induction rows generalizing s with
  | nil => simp at hm
  | cons p rest ih =>
    obtain ⟨h0, r0⟩ := p
    rw [triB_cons] at ht
    rcases List.mem_cons.1 hm with h1 | h1
    · rw [Prod.mk.injEq] at h1
      refine ⟨[], keysOf rest, ?_, ?_⟩
      · simp [keysOf, h1.1]
      · simp [h1.2, ht.1]
    · obtain ⟨s2, s3, hkeys, hr⟩ := ih ht.2 h1
      refine ⟨h0 :: s2, s3, ?_, ?_⟩
      · simp only [keysOf, List.map_cons] at hkeys ⊢
        rw [hkeys]
        rfl
      · rw [hr]
        simp

/-- Twice the number of stored entries, in subtraction-free form:
`2E + n = n² + 2sn` where `n` is the number of rows and `s` the number of
already-seen keys.  With `s = 0` this is the claimed `n(n-1)/2`. -/
theorem entriesOf_count {rows : List (Nat × Row)} :
    ∀ {s : List Nat}, triB s rows = true →
      2 * (entriesOf rows).length + rows.length =
        rows.length * rows.length + 2 * s.length * rows.length := by
  induction rows with
  | nil => intro s _; simp [entriesOf]
  | cons p rest ih =>
    intro s ht
    obtain ⟨h0, r0⟩ := p
    rw [triB_cons] at ht
    have hlen : r0.length = s.length := by
      have := congrArg List.length ht.1
      simpa using this
    have ih2 := ih ht.2
    rw [entriesOf]
    simp only [List.length_append, List.length_map, List.length_cons, hlen] at ih2 ⊢
    simp only [List.length_append, List.length_cons, List.length_nil] at ih2
    zify at ih2 ⊢
    linear_combination ih2

theorem buildRow_keys {t : Dom} {el : Path} :
    ∀ {prev : List (Nat × Path)} {row : Row}, buildRow t el prev = some row →
      row.map Prod.fst = prev.map Prod.fst := by
  intro prev
  induction prev with
  | nil =>
    intro row h
    simp [buildRow] at h
    simp [← h]
  | cons p rest ih =>
    intro row h
    obtain ⟨h0, p0⟩ := p
    rw [buildRow] at h
    cases hd : distance t el p0 with
    | none => rw [hd] at h; simp at h
    | some d =>
      rw [hd] at h
      cases hb : buildRow t el rest with
      | none => rw [hb] at h; simp at h
      | some tail =>
        rw [hb] at h
        rw [Option.some_inj] at h
        subst h
        simp [ih hb]

theorem initRows_spec (t : Dom) :
    ∀ (els : List Path) (h0 : Nat) (prev : List (Nat × Path))
      (rows : List (Nat × Row)), initRows t els h0 prev = some rows →
      triB (prev.map Prod.fst) rows = true ∧
        keysOf rows = List.range' h0 els.length := by
  intro els
  induction els with
  | nil =>
    intro h0 prev rows h
    simp [initRows] at h
    subst h
    simp [triB, keysOf]
  | cons el rest ih =>
    intro h0 prev rows h
    rw [initRows] at h
    cases hb : buildRow t el prev with
    | none => rw [hb] at h; simp at h
    | some row =>
      rw [hb] at h
      cases hr : initRows t rest (h0 + 1) (prev ++ [(h0, el)]) with
      | none => rw [hr] at h; simp at h
      | some tail =>
        rw [hr] at h
        rw [Option.some_inj] at h
        subst h
        obtain ⟨ht, hk⟩ := ih (h0 + 1) (prev ++ [(h0, el)]) tail hr
        constructor
        · rw [triB_cons]
          refine ⟨buildRow_keys hb, ?_⟩
          simpa using ht
        · simp only [keysOf, List.map_cons, List.length_cons]
          rw [List.range'_succ]
          simp only [keysOf] at hk
          rw [hk]

/-- The matrix constructor produces a well-formed state whose keys are
`0, ..., n-1` in order. -/
theorem initMatrix_wf {t : Dom} {els : List Path} {m : DM}
    (h : initMatrix t els = some m) :
    WFDM m ∧ keysOf m.rows = List.range' 0 els.length ∧
      m.nclusters = els.length ∧ m.arena = els.map JCluster.leaf := by
  rw [initMatrix] at h
  cases hr : initRows t els 0 [] with
  | none => rw [hr] at h; simp at h
  | some rows =>
    rw [hr] at h
    rw [Option.some_inj] at h
    subst h
    obtain ⟨ht, hk⟩ := initRows_spec t els 0 [] rows hr
    have hlen : rows.length = els.length := by
      have := congrArg List.length hk
      simpa [keysOf] using this
    refine ⟨⟨?_, ?_, ?_, ?_⟩, hk, rfl, rfl⟩
    · simpa using ht
    · rw [hk]
      exact List.nodup_range' _ _
    · simpa using hlen.symm
    · intro k hm
      rw [hk, List.mem_range'_1] at hm
      simpa using hm.2

/-!  Cached lookups under the triangular invariant.  -/

/-- In a duplicate-free list, if `y` occurs after `x` then `x` occurs
before `y`. -/
theorem keys_order {l : List Nat} (hd : l.Nodup) {s1 s2 t1 t2 : List Nat}
    {x y : Nat} (hxy : x ≠ y) (hs : l = s1 ++ x :: s2) (ht : l = t1 ++ y :: t2)
    (hy : y ∈ s2) : x ∈ t1 := by
  induction l generalizing s1 t1 with
  | nil => cases s1 <;> simp at hs
  | cons c l2 ih =>
    rw [List.nodup_cons] at hd
    cases s1 with
    | nil =>
      rw [List.nil_append, List.cons.injEq] at hs
      cases t1 with
      | nil =>
        rw [List.nil_append, List.cons.injEq] at ht
        exact absurd (hs.1.symm.trans ht.1) hxy
      | cons d t1x =>
        rw [List.cons_append, List.cons.injEq] at ht
        rw [List.mem_cons]
        exact Or.inl (hs.1.symm.trans ht.1)
    | cons c1 s1x =>
      rw [List.cons_append, List.cons.injEq] at hs
      cases t1 with
      | nil =>
        rw [List.nil_append, List.cons.injEq] at ht
        have hyl2 : y ∈ l2 := by
          rw [hs.2]
          exact List.mem_append_right _ (List.mem_cons_of_mem _ hy)
        exact absurd (ht.1 ▸ hyl2) hd.1
      | cons d t1x =>
        rw [List.cons_append, List.cons.injEq] at ht
        rw [List.mem_cons]
        exact Or.inr (ih hd.2 hs.2 ht.2)

/-- Triangular lookup: a live key's row exists and its inner keys are
exactly the earlier keys. -/
theorem tri_lookup {rows : List (Nat × Row)} (ht : triB [] rows = true)
    (hd : (keysOf rows).Nodup) {x : Nat} (hx : x ∈ keysOf rows) :
    ∃ r s2 s3, alookup rows x = some r ∧ keysOf rows = s2 ++ x :: s3 ∧
      r.map Prod.fst = s2 ∧ x ∉ s2 := by
  obtain ⟨⟨x2, r⟩, hmem, hfst⟩ := List.mem_map.1 hx
  rw [show x2 = x from hfst] at hmem
  obtain ⟨s2, s3, hkeys, hr⟩ := tri_mem_decomp ht hmem
  rw [List.nil_append] at hr
  have hnm : x ∉ s2 := by
    rw [hkeys] at hd
    have h2 := List.nodup_cons.1 (List.nodup_middle.1 hd)
    exact fun hc => h2.1 (List.mem_append_left _ hc)
  exact ⟨r, s2, s3, alookup_of_mem_nodup hd hmem, hkeys, hr, hnm⟩

theorem alookup_eq_none_of_not_mem {l : List (Nat × α)} {k : Nat}
    (h : k ∉ l.map Prod.fst) : alookup l k = none := by
  cases ha : alookup l k with
  | none => rfl
  | some v =>
    exact absurd (alookup_isSome_iff.1 (by rw [ha]; rfl)) h

/-- Under the triangular invariant every unordered pair of distinct live
keys has a cached distance in one of the two directions
(`_cachedDistance` never misses). -/
theorem cachedDistance_isSome {rows : List (Nat × Row)}
    (ht : triB [] rows = true) (hd : (keysOf rows).Nodup) {x y : Nat}
    (hx : x ∈ keysOf rows) (hy : y ∈ keysOf rows) (hxy : x ≠ y) :
    (cachedDistance rows x y).isSome = true := by
  obtain ⟨rx, sx, sx2, hlx, hkx, hrx, hnx⟩ := tri_lookup ht hd hx
  obtain ⟨ry, sy, sy2, hly, hky, hry, hny⟩ := tri_lookup ht hd hy
  have hstep : cachedDistance rows x y =
      (match alookup rx y with
       | some d => some d
       | none => (alookup rows y).bind (fun rb => alookup rb x)) := by
    rw [cachedDistance, hlx]
    rfl
  by_cases hmem : y ∈ sx
  · have hsm : (alookup rx y).isSome = true := by
      rw [alookup_isSome_iff, hrx]
      exact hmem
    cases hv : alookup rx y with
    | none => rw [hv] at hsm; simp at hsm
    | some d =>
      rw [hstep, hv]
      rfl
  · have hyin : y ∈ sx2 := by
      have hmm := hkx ▸ hy
      rcases List.mem_append.1 hmm with h1 | h1
      · exact absurd h1 hmem
      · rcases List.mem_cons.1 h1 with h1 | h1
        · exact absurd h1.symm hxy
        · exact h1
    have hxty : x ∈ sy := keys_order hd hxy hkx hky hyin
    have hnone : alookup rx y = none := by
      apply alookup_eq_none_of_not_mem
      rw [hrx]
      exact hmem
    have hsm : (alookup ry x).isSome = true := by
      rw [alookup_isSome_iff, hry]
      exact hxty
    cases hv : alookup ry x with
    | none => rw [hv] at hsm; simp at hsm
    | some d =>
      rw [hstep, hnone, hly]
      simp [hv]

/-!  The new-row loop of `merge`.  -/

theorem newRowFor_spec {rows : List (Nat × Row)} {a b : Nat} :
    ∀ it : List (Nat × Row),
      (∀ k ∈ keysOf it, k ≠ a → k ≠ b →
        (cachedDistance rows a k).isSome = true ∧
          (cachedDistance rows b k).isSome = true) →
      ∃ r, newRowFor rows a b it = some r ∧
        r.map Prod.fst = (keysOf it).filter (fun k => decide (k ≠ a ∧ k ≠ b)) := by
  intro it
  induction it with
  | nil => intro _; exact ⟨[], rfl, rfl⟩
  | cons p rest ih =>
    intro hcd
    obtain ⟨k0, r0⟩ := p
    have hcdr : ∀ k ∈ keysOf rest, k ≠ a → k ≠ b →
        (cachedDistance rows a k).isSome = true ∧
          (cachedDistance rows b k).isSome = true :=
      fun k hk => hcd k (List.mem_cons_of_mem _ hk)
    obtain ⟨rtail, hrt, hrk⟩ := ih hcdr
    by_cases hk0 : k0 = a ∨ k0 = b
    · refine ⟨rtail, ?_, ?_⟩
      · rw [newRowFor, if_pos hk0]
        exact hrt
      · rw [hrk]
        rcases hk0 with h | h <;> subst h <;> simp [keysOf, List.filter_cons]
    · push_neg at hk0
      obtain ⟨hc1, hc2⟩ := hcd k0 (by simp [keysOf]) hk0.1 hk0.2
      obtain ⟨d1, hd1⟩ := Option.isSome_iff_exists.1 hc1
      obtain ⟨d2, hd2⟩ := Option.isSome_iff_exists.1 hc2
      refine ⟨(k0, min d1 d2) :: rtail, ?_, ?_⟩
      · rw [newRowFor, if_neg (by tauto), hd1, hd2, hrt]
      · simp [keysOf, List.filter_cons, hk0.1, hk0.2, hrk]

theorem newRowFor_values {rows : List (Nat × Row)} {a b : Nat} :
    ∀ (it : List (Nat × Row)) (r : Row), (keysOf it).Nodup →
      newRowFor rows a b it = some r →
      ∀ k ∈ keysOf it, k ≠ a → k ≠ b →
        ∃ d1 d2, cachedDistance rows a k = some d1 ∧
          cachedDistance rows b k = some d2 ∧ alookup r k = some (min d1 d2) := by
  intro it
  induction it with
  | nil => intro r _ _ k hk; simp [keysOf] at hk
  | cons p rest ih =>
    intro r hd hr k hk hka hkb
    obtain ⟨k0, r0⟩ := p
    simp only [keysOf, List.map_cons, List.nodup_cons] at hd
    by_cases hk0 : k0 = a ∨ k0 = b
    · rw [newRowFor, if_pos hk0] at hr
      rcases List.mem_cons.1 hk with h1 | h1
      · subst h1
        rcases hk0 with h | h
        · exact absurd h hka
        · exact absurd h hkb
      · exact ih r hd.2 hr k h1 hka hkb
    · rw [newRowFor, if_neg (by tauto)] at hr
      cases hd1 : cachedDistance rows a k0 with
      | none => rw [hd1] at hr; simp at hr
      | some d1 =>
        cases hd2 : cachedDistance rows b k0 with
        | none => rw [hd1, hd2] at hr; simp at hr
        | some d2 =>
          cases hrt : newRowFor rows a b rest with
          | none => rw [hd1, hd2, hrt] at hr; simp at hr
          | some rtail =>
            rw [hd1, hd2, hrt, Option.some_inj] at hr
            subst hr
            rcases List.mem_cons.1 hk with h1 | h1
            · subst h1
              exact ⟨d1, d2, hd1, hd2, by rw [alookup, if_pos rfl]⟩
            · have hkk0 : k0 ≠ k := fun hc => hd.1 (hc ▸ h1)
              obtain ⟨e1, e2, he1, he2, hlook⟩ := ih rtail hd.2 hrt k h1 hka hkb
              exact ⟨e1, e2, he1, he2, by rw [alookup, if_neg hkk0]; exact hlook⟩

/-!  Preservation of the triangular invariant by `merge`.  -/

theorem keysOf_map_inner (g : Nat × Row → Row) (rows : List (Nat × Row)) :
    keysOf (rows.map (fun kr => (kr.1, g kr))) = keysOf rows := by
  induction rows with
  | nil => rfl
  | cons p rest ih => simp [keysOf]

theorem aerase_map_inner (g : Nat × Row → Row) (rows : List (Nat × Row)) (k : Nat) :
    aerase (rows.map (fun kr => (kr.1, g kr))) k =
      (aerase rows k).map (fun kr => (kr.1, g kr)) := by
  induction rows with
  | nil => rfl
  | cons p rest ih =>
    obtain ⟨k0, r0⟩ := p
    by_cases hk : k0 = k <;> simp [aerase, hk, ih]

theorem keysOf_aerase_eq (l : List (Nat × Row)) (k : Nat) :
    keysOf (aerase l k) = nerase (keysOf l) k :=
  keysOf_aerase l k

/-- Inner-erasing a key that owns no row preserves the triangular shape,
with the key dropped from the seen list. -/
theorem tri_inner_erase {a : Nat} :
    ∀ {s : List Nat} {rows : List (Nat × Row)}, triB s rows = true →
      a ∉ keysOf rows →
      triB (nerase s a) (rows.map (fun kr => (kr.1, aerase kr.2 a))) = true := by
  intro s rows
  induction rows generalizing s with
  | nil => intro _ _; rfl
  | cons p rest ih =>
    intro ht hna
    obtain ⟨h0, r0⟩ := p
    rw [triB_cons] at ht
    have hkc : keysOf ((h0, r0) :: rest) = h0 :: keysOf rest := rfl
    have hna1 : a ≠ h0 := fun hc => hna (by rw [hkc, hc]; exact List.mem_cons_self _ _)
    have hna2 : a ∉ keysOf rest :=
      fun hc => hna (by rw [hkc]; exact List.mem_cons_of_mem _ hc)
    rw [List.map_cons, triB_cons]
    constructor
    · rw [keysOf_aerase, ht.1]
    · rw [← nerase_append_of_ne (fun hc => hna1 hc.symm)]
      exact ih ht.2 hna2

/-- Deleting a key's row and inner-erasing it everywhere preserves the
triangular shape. -/
theorem tri_erase_row {a : Nat} :
    ∀ {s : List Nat} {rows : List (Nat × Row)},
      (s ++ keysOf rows).Nodup → triB s rows = true →
      triB (nerase s a)
        ((aerase rows a).map (fun kr => (kr.1, aerase kr.2 a))) = true := by
  intro s rows
  induction rows generalizing s with
  | nil => intro _ _; rfl
  | cons p rest ih =>
    intro hd ht
    obtain ⟨h0, r0⟩ := p
    rw [triB_cons] at ht
    have hkc : keysOf ((h0, r0) :: rest) = h0 :: keysOf rest := rfl
    rw [hkc] at hd
    have hd2 : (h0 :: (s ++ keysOf rest)).Nodup := List.nodup_middle.1 hd
    rw [List.nodup_cons] at hd2
    by_cases hh : h0 = a
    · subst hh
      have hns : h0 ∉ s := fun hc => hd2.1 (List.mem_append_left _ hc)
      have hnr : h0 ∉ keysOf rest := fun hc => hd2.1 (List.mem_append_right _ hc)
      rw [show aerase ((h0, r0) :: rest) h0 = rest by simp [aerase]]
      rw [nerase_of_not_mem hns]
      have := tri_inner_erase ht.2 hnr
      rwa [nerase_snoc_self hns] at this
    · rw [show aerase ((h0, r0) :: rest) a = (h0, r0) :: aerase rest a by
        simp [aerase, hh]]
      rw [List.map_cons, triB_cons]
      constructor
      · rw [keysOf_aerase, ht.1]
      · have hd3 : ((s ++ [h0]) ++ keysOf rest).Nodup := by
          simpa [keysOf, List.append_assoc] using hd
        have := ih hd3 ht.2
        rwa [nerase_append_of_ne hh] at this

/-- Appending a fresh row whose inner keys are all current keys preserves
the triangular shape. -/
theorem tri_append_row {k : Nat} {r : Row} :
    ∀ {s : List Nat} {rows : List (Nat × Row)}, triB s rows = true →
      r.map Prod.fst = s ++ keysOf rows → triB s (rows ++ [(k, r)]) = true := by
  intro s rows
  induction rows generalizing s with
  | nil =>
    intro _ hr
    rw [List.nil_append, triB_cons]
    refine ⟨by simpa [keysOf] using hr, rfl⟩
  | cons p rest ih =>
    intro ht hr
    obtain ⟨h0, r0⟩ := p
    rw [triB_cons] at ht
    rw [List.cons_append, triB_cons]
    refine ⟨ht.1, ih ht.2 ?_⟩
    rw [hr]
    simp [keysOf]

theorem nerase_eq_filter {s : List Nat} (hd : s.Nodup) (a : Nat) :
    nerase s a = s.filter (fun k => decide (k ≠ a)) := by
  induction s with
  | nil => rfl
  | cons x rest ih =>
    rw [List.nodup_cons] at hd
    by_cases hx : x = a
    · subst hx
      rw [show nerase (x :: rest) x = rest by simp [nerase]]
      rw [List.filter_cons]
      have hcond : (decide (x ≠ x)) = false := by simp
      rw [hcond]
      simp only [Bool.false_eq_true, if_false]
      exact (List.filter_eq_self.2 (fun k hk => by
        simp only [ne_eq, decide_eq_true_eq]
        exact fun hc => hd.1 (hc ▸ hk))).symm
    · rw [show nerase (x :: rest) a = x :: nerase rest a by simp [nerase, hx]]
      rw [List.filter_cons]
      simp [hx, ih hd.2]

theorem nerase_nerase_eq_filter {s : List Nat} (hd : s.Nodup) (a b : Nat) :
    nerase (nerase s a) b = s.filter (fun k => decide (k ≠ a ∧ k ≠ b)) := by
  rw [nerase_eq_filter hd a, nerase_eq_filter (hd.filter _) b, List.filter_filter]
  apply List.filter_congr
  intro k _
  simp [Bool.and_comm]

/-- Inner keys of any triangular row are live keys. -/
theorem tri_inner_sub {rows : List (Nat × Row)} (ht : triB [] rows = true)
    {k : Nat} {r : Row} (hm : (k, r) ∈ rows) {x : Nat}
    (hx : x ∈ r.map Prod.fst) : x ∈ keysOf rows := by
  obtain ⟨s2, s3, hkeys, hr⟩ := tri_mem_decomp ht hm
  rw [hr, List.nil_append] at hx
  rw [hkeys]
  exact List.mem_append_left _ hx

/-- `merge` on two distinct live clusters of a well-formed matrix:
it succeeds, appends the pair cluster with the new row, and preserves
well-formedness; `numClusters` drops by exactly one. -/
theorem mergeDM_wf {m : DM} {a b : Nat} (hwf : WFDM m)
    (ha : a ∈ keysOf m.rows) (hb : b ∈ keysOf m.rows) (hab : a ≠ b) :
    ∃ m2 nr,
      mergeDM m a b = some m2 ∧
      newRowFor m.rows a b m.rows = some nr ∧
      m2.rows = ((aerase (aerase m.rows a) b).map
        (fun kr => (kr.1, aerase (aerase kr.2 a) b))) ++ [(m.arena.length, nr)] ∧
      (∃ ca cb, m.arena[a]? = some ca ∧ m.arena[b]? = some cb ∧
        m2.arena = m.arena ++ [JCluster.pair ca cb]) ∧
      m2.nclusters = m.nclusters - 1 ∧
      keysOf m2.rows = nerase (nerase (keysOf m.rows) a) b ++ [m.arena.length] ∧
      2 ≤ m.nclusters ∧
      WFDM m2 := by
  have htri := hwf.tri
  have hd := hwf.nodup
  have hcd : ∀ k ∈ keysOf m.rows, k ≠ a → k ≠ b →
      (cachedDistance m.rows a k).isSome = true ∧
        (cachedDistance m.rows b k).isSome = true :=
    fun k hk hka hkb =>
      ⟨cachedDistance_isSome htri hd ha hk (Ne.symm hka),
       cachedDistance_isSome htri hd hb hk (Ne.symm hkb)⟩
  obtain ⟨nr, hnr, hnrk⟩ := newRowFor_spec m.rows hcd
  have hva : a < m.arena.length := hwf.valid a ha
  have hvb : b < m.arena.length := hwf.valid b hb
  have hga : m.arena[a]? = some m.arena[a] := List.getElem?_eq_getElem hva
  have hgb : m.arena[b]? = some m.arena[b] := List.getElem?_eq_getElem hvb
  have hkeys1 : keysOf ((aerase m.rows a).map (fun kr => (kr.1, aerase kr.2 a))) =
      nerase (keysOf m.rows) a := by
    rw [keysOf_map_inner (fun kr => aerase kr.2 a), keysOf_aerase_eq]
  have hstep1 : triB [] ((aerase m.rows a).map (fun kr => (kr.1, aerase kr.2 a))) = true := by
    have := tri_erase_row (a := a) (by simpa using hd) htri
    simpa [nerase] using this
  have hnd1 : (keysOf ((aerase m.rows a).map (fun kr => (kr.1, aerase kr.2 a)))).Nodup := by
    rw [hkeys1]
    exact nodup_nerase hd a
  have hstep2 := tri_erase_row (a := b) (by simpa using hnd1) hstep1
  have hR2 : (aerase ((aerase m.rows a).map (fun kr => (kr.1, aerase kr.2 a))) b).map
        (fun kr => (kr.1, aerase kr.2 b)) =
      (aerase (aerase m.rows a) b).map (fun kr => (kr.1, aerase (aerase kr.2 a) b)) := by
    rw [aerase_map_inner (fun kr => aerase kr.2 a), List.map_map]
    rfl
  rw [hR2] at hstep2
  have hkeys2 : keysOf ((aerase (aerase m.rows a) b).map
      (fun kr => (kr.1, aerase (aerase kr.2 a) b))) =
      nerase (nerase (keysOf m.rows) a) b := by
    rw [keysOf_map_inner (fun kr => aerase (aerase kr.2 a) b), keysOf_aerase_eq,
      keysOf_aerase_eq]
  have hnrk2 : nr.map Prod.fst = nerase (nerase (keysOf m.rows) a) b := by
    rw [hnrk, nerase_nerase_eq_filter hd]
  have htri2 : triB []
      (((aerase (aerase m.rows a) b).map (fun kr => (kr.1, aerase (aerase kr.2 a) b))) ++
        [(m.arena.length, nr)]) = true := by
    apply tri_append_row (by simpa [nerase] using hstep2)
    rw [hnrk2, hkeys2, List.nil_append]
  have hba : b ∈ nerase (keysOf m.rows) a := mem_nerase_of_mem hb (Ne.symm hab)
  have hlen1 : (aerase m.rows a).length + 1 = m.rows.length := length_aerase_of_mem ha
  have hlen2 : (aerase (aerase m.rows a) b).length + 1 = (aerase m.rows a).length := by
    apply length_aerase_of_mem
    rw [keysOf_aerase]
    exact hba
  have hsub2 : ∀ k ∈ nerase (nerase (keysOf m.rows) a) b, k ∈ keysOf m.rows :=
    fun k hk => mem_nerase (mem_nerase hk)
  refine ⟨{ arena := m.arena ++ [JCluster.pair m.arena[a] m.arena[b]]
            rows := ((aerase (aerase m.rows a) b).map
              (fun kr => (kr.1, aerase (aerase kr.2 a) b))) ++ [(m.arena.length, nr)]
            nclusters := m.nclusters - 1 }, nr, ?_, hnr, rfl,
    ⟨m.arena[a], m.arena[b], hga, hgb, rfl⟩, rfl, ?_, ?_, ?_, ?_, ?_, ?_⟩
  · rw [mergeDM, hnr, hga, hgb]
  · show keysOf _ = _
    rw [keysOf, List.map_append, ← keysOf, hkeys2]
    rfl
  · have hc := hwf.count
    omega
  · exact htri2
  · show (keysOf _).Nodup
    rw [keysOf, List.map_append, ← keysOf, hkeys2]
    rw [List.nodup_append]
    refine ⟨nodup_nerase (nodup_nerase hd a) b, List.nodup_singleton _, ?_⟩
    intro x hx hx2
    simp at hx2
    have := hwf.valid x (hsub2 x hx)
    omega
  · show m.nclusters - 1 = _
    have hc := hwf.count
    simp only [List.length_append, List.length_map, List.length_cons, List.length_nil]
    omega
  · intro k hk
    simp only [List.length_append, List.length_cons, List.length_nil]
    rw [keysOf, List.map_append, ← keysOf, hkeys2] at hk
    rcases List.mem_append.1 hk with h1 | h1
    · have := hwf.valid k (hsub2 k h1)
      omega
    · simp at h1
      omega

/-- Claim C5: on a well-formed matrix with at least three live clusters,
`merge(A, B)` succeeds; the new cluster's row maps every other live
cluster `X` to `min` of the two cached distances (looked up via
`_cachedDistance`, trying both triangular directions); `A` and `B`
disappear both as row keys and as inner-entry keys everywhere; and
`numClusters` decreases by exactly 1. -/
theorem claim_C5 (m : DM) (a b : Nat) (hwf : WFDM m) (h3 : 3 ≤ m.nclusters)
    (ha : a ∈ keysOf m.rows) (hb : b ∈ keysOf m.rows) (hab : a ≠ b) :
    ∃ m2 nr,
      mergeDM m a b = some m2 ∧
      alookup m2.rows m.arena.length = some nr ∧
      (∀ x ∈ keysOf m.rows, x ≠ a → x ≠ b →
        ∃ d1 d2, cachedDistance m.rows a x = some d1 ∧
          cachedDistance m.rows b x = some d2 ∧
          alookup nr x = some (min d1 d2)) ∧
      a ∉ keysOf m2.rows ∧ b ∉ keysOf m2.rows ∧
      (∀ kr ∈ m2.rows, a ∉ kr.2.map Prod.fst ∧ b ∉ kr.2.map Prod.fst) ∧
      m2.nclusters + 1 = m.nclusters := by
  obtain ⟨m2, nr, hmerge, hnr, hrows, _, hncl, hkeys, h2le, hwf2⟩ :=
    mergeDM_wf hwf ha hb hab
  have hd := hwf.nodup
  have hnn : ∀ k ∈ nerase (nerase (keysOf m.rows) a) b, k ∈ keysOf m.rows :=
    fun k hk => mem_nerase (mem_nerase hk)
  have hna : a ∉ keysOf m2.rows := by
    rw [hkeys]
    intro hc
    rcases List.mem_append.1 hc with h1 | h1
    · exact not_mem_nerase_self hd a (mem_nerase h1)
    · rw [List.mem_singleton] at h1
      exact absurd (h1 ▸ hwf.valid a ha) (lt_irrefl _)
  have hnb : b ∉ keysOf m2.rows := by
    rw [hkeys]
    intro hc
    rcases List.mem_append.1 hc with h1 | h1
    · exact not_mem_nerase_self (nodup_nerase hd a) b h1
    · rw [List.mem_singleton] at h1
      exact absurd (h1 ▸ hwf.valid b hb) (lt_irrefl _)
  refine ⟨m2, nr, hmerge, ?_, ?_, hna, hnb, ?_, by omega⟩
  · rw [hrows]
    have hnotin : m.arena.length ∉
        keysOf ((aerase (aerase m.rows a) b).map
          (fun kr => (kr.1, aerase (aerase kr.2 a) b))) := by
      rw [keysOf_map_inner (fun kr => aerase (aerase kr.2 a) b), keysOf_aerase_eq,
        keysOf_aerase_eq]
      intro hc
      exact absurd (hwf.valid _ (hnn _ hc)) (lt_irrefl _)
    rw [keysOf] at hnotin
    rw [alookup_append_right hnotin, alookup]
    simp
  · exact newRowFor_values m.rows nr hwf.nodup hnr
  · intro kr hkr
    obtain ⟨k0, r0⟩ := kr
    exact ⟨fun hc => hna (tri_inner_sub hwf2.tri hkr hc),
      fun hc => hnb (tri_inner_sub hwf2.tri hkr hc)⟩

/-- Witness for claim C5 at a concrete input: the 3-cluster matrix over
the three paragraphs of `sibTree`, merging clusters 0 and 1. -/
theorem claim_C5_witness :
    3 ≤ wM.nclusters ∧ 0 ∈ keysOf wM.rows ∧ 1 ∈ keysOf wM.rows ∧
      (∃ m2 nr,
        mergeDM wM 0 1 = some m2 ∧
        alookup m2.rows wM.arena.length = some nr ∧
        (∀ x ∈ keysOf wM.rows, x ≠ 0 → x ≠ 1 →
          ∃ d1 d2, cachedDistance wM.rows 0 x = some d1 ∧
            cachedDistance wM.rows 1 x = some d2 ∧
            alookup nr x = some (min d1 d2)) ∧
        0 ∉ keysOf m2.rows ∧ 1 ∉ keysOf m2.rows ∧
        (∀ kr ∈ m2.rows, 0 ∉ kr.2.map Prod.fst ∧ 1 ∉ kr.2.map Prod.fst) ∧
        m2.nclusters + 1 = wM.nclusters) :=
  ⟨by decide, by decide, by decide,
    claim_C5 wM 0 1 ⟨by decide, by decide, by decide, by decide⟩ (by decide)
      (by decide) (by decide) (by decide)⟩

/-!  The entry-count invariant and pair uniqueness (claim C6).  -/

/-- Any well-formed matrix satisfies the count formula
`entries = n(n-1)/2`. -/
theorem wf_entriesCount {m : DM} (hwf : WFDM m) :
    2 * entriesCount m + m.nclusters = m.nclusters * m.nclusters ∧
      entriesCount m = m.nclusters * (m.nclusters - 1) / 2 := by
  have hE := entriesOf_count hwf.tri
  have hc := hwf.count
  simp only [List.length_nil, Nat.mul_zero, Nat.zero_mul, Nat.add_zero] at hE
  have hmul : m.rows.length * (m.rows.length - 1) =
      m.rows.length * m.rows.length - m.rows.length := by
    cases hn : m.rows.length with
    | zero => simp
    | succ k =>
      rw [Nat.succ_sub_one]
      have hms : (k + 1) * (k + 1) = (k + 1) * k + (k + 1) := Nat.mul_succ (k + 1) k
      omega
  rw [entriesCount, hc]
  constructor
  · omega
  · rw [hmul]
    omega

theorem keys_order_rev {l : List Nat} (hd : l.Nodup) {s1 s2 t1 t2 : List Nat}
    {x y : Nat} (hxy : x ≠ y) (hs : l = s1 ++ x :: s2) (ht : l = t1 ++ y :: t2)
    (hy : y ∈ s1) : x ∈ t2 := by
  have hdr : l.reverse.Nodup := List.nodup_reverse.2 hd
  have hsr : l.reverse = s2.reverse ++ x :: s1.reverse := by
    rw [hs]
    simp
  have htr : l.reverse = t2.reverse ++ y :: t1.reverse := by
    rw [ht]
    simp
  have hres := keys_order hdr hxy hsr htr (List.mem_reverse.2 hy)
  exact List.mem_reverse.1 hres

theorem decomp_unique {x : Nat} : ∀ {s1 s2 t1 t2 : List Nat},
    (s1 ++ x :: s2).Nodup → s1 ++ x :: s2 = t1 ++ x :: t2 → s1 = t1 := by
  intro s1
  induction s1 with
  | nil =>
    intro s2 t1 t2 hd heq
    cases t1 with
    | nil => rfl
    | cons c t1x =>
      rw [List.nil_append, List.cons_append, List.cons.injEq] at heq
      rw [List.nil_append, List.nodup_cons] at hd
      exfalso
      apply hd.1
      rw [heq.2]
      exact List.mem_append_right _ (heq.1 ▸ List.mem_cons_self _ _)
  | cons c s1x ih =>
    intro s2 t1 t2 hd heq
    cases t1 with
    | nil =>
      rw [List.cons_append, List.nil_append, List.cons.injEq] at heq
      rw [List.cons_append, List.nodup_cons] at hd
      exfalso
      apply hd.1
      rw [heq.1]
      exact List.mem_append_right _ (List.mem_cons_self _ _)
    | cons d t1x =>
      rw [List.cons_append, List.cons_append, List.cons.injEq] at heq
      rw [List.cons_append, List.nodup_cons] at hd
      rw [heq.1]
      exact congrArg (d :: ·) (ih hd.2 heq.2)

/-- Claim C6: the table holds exactly `n(n-1)/2` stored entries after
construction; the invariant is preserved by every merge of two distinct
live clusters; and each unordered pair of live clusters has exactly one
stored entry, kept in the row of the later-inserted cluster (the inner
key is the earlier-inserted one). -/
theorem claim_C6 :
    (∀ (t : Dom) (els : List Path) (m : DM), initMatrix t els = some m →
      WFDM m ∧ entriesCount m = m.nclusters * (m.nclusters - 1) / 2) ∧
    (∀ (m m2 : DM) (a b : Nat), WFDM m → a ∈ keysOf m.rows →
      b ∈ keysOf m.rows → a ≠ b → mergeDM m a b = some m2 →
      WFDM m2 ∧ entriesCount m2 = m2.nclusters * (m2.nclusters - 1) / 2) ∧
    (∀ m : DM, WFDM m → ∀ x y, x ∈ keysOf m.rows → y ∈ keysOf m.rows → x ≠ y →
      ∃ rx ry, alookup m.rows x = some rx ∧ alookup m.rows y = some ry ∧
        (rx.map Prod.fst).count y + (ry.map Prod.fst).count x = 1 ∧
        (y ∈ rx.map Prod.fst ↔ ∃ s2 s3, keysOf m.rows = s2 ++ x :: s3 ∧ y ∈ s2)) := by
  refine ⟨?_, ?_, ?_⟩
  · intro t els m h
    obtain ⟨hwf, _, _, _⟩ := initMatrix_wf h
    exact ⟨hwf, (wf_entriesCount hwf).2⟩
  · intro m m2 a b hwf ha hb hab hmerge
    obtain ⟨m2x, nr, hmerge2, _, _, _, _, _, _, hwf2⟩ := mergeDM_wf hwf ha hb hab
    rw [hmerge2, Option.some_inj] at hmerge
    subst hmerge
    exact ⟨hwf2, (wf_entriesCount hwf2).2⟩
  · intro m hwf x y hx hy hxy
    obtain ⟨rx, sx, sx2, hlx, hkx, hrx, hnx⟩ := tri_lookup hwf.tri hwf.nodup hx
    obtain ⟨ry, sy, sy2, hly, hky, hry, hny⟩ := tri_lookup hwf.tri hwf.nodup hy
    have hd := hwf.nodup
    have hndx : sx.Nodup := by
      have := hkx ▸ hd
      exact (List.nodup_append.1 this).1
    have hndy : sy.Nodup := by
      have := hky ▸ hd
      exact (List.nodup_append.1 this).1
    refine ⟨rx, ry, hlx, hly, ?_⟩
    by_cases hymem : y ∈ sx
    · have hcy : (rx.map Prod.fst).count y = 1 := by
        rw [hrx]
        exact List.count_eq_one_of_mem hndx hymem
      have hxsy2 : x ∈ sy2 := keys_order_rev hd hxy hkx hky hymem
      have hxnsy : x ∉ sy := by
        intro hc
        have hdis := (List.nodup_append.1 (hky ▸ hd)).2.2
        exact hdis hc (List.mem_cons_of_mem _ hxsy2)
      have hcx : (ry.map Prod.fst).count x = 0 := by
        rw [hry]
        exact List.count_eq_zero_of_not_mem hxnsy
      refine ⟨by omega, ?_⟩
      constructor
      · intro _
        exact ⟨sx, sx2, hkx, hymem⟩
      · intro _
        rw [hrx]
        exact hymem
    · have hyin : y ∈ sx2 := by
        have hmm := hkx ▸ hy
        rcases List.mem_append.1 hmm with h1 | h1
        · exact absurd h1 hymem
        · rcases List.mem_cons.1 h1 with h1 | h1
          · exact absurd h1.symm hxy
          · exact h1
      have hxsy : x ∈ sy := keys_order hd hxy hkx hky hyin
      have hcx : (ry.map Prod.fst).count x = 1 := by
        rw [hry]
        exact List.count_eq_one_of_mem hndy hxsy
      have hcy : (rx.map Prod.fst).count y = 0 := by
        rw [hrx]
        exact List.count_eq_zero_of_not_mem hymem
      refine ⟨by omega, ?_⟩
      constructor
      · intro hc
        rw [hrx] at hc
        exact absurd hc hymem
      · rintro ⟨s2, s3, hk2, hy2⟩
        exfalso
        have hseq : sx = s2 := decomp_unique (hkx ▸ hd) (hkx ▸ hk2)
        exact hymem (hseq ▸ hy2)

/-- Witness for claim C6 at concrete inputs: the matrix over the three
paragraphs of `sibTree`, its merge of clusters 0 and 1, and the stored
pair (2, 0). -/
theorem claim_C6_witness :
    initMatrix sibTree wEls = some wM ∧
      (WFDM wM ∧ entriesCount wM = wM.nclusters * (wM.nclusters - 1) / 2) ∧
      mergeDM wM 0 1 = some wM2 ∧
      (WFDM wM2 ∧ entriesCount wM2 = wM2.nclusters * (wM2.nclusters - 1) / 2) ∧
      (∃ rx ry, alookup wM.rows 2 = some rx ∧ alookup wM.rows 0 = some ry ∧
        (rx.map Prod.fst).count 0 + (ry.map Prod.fst).count 2 = 1 ∧
        (0 ∈ rx.map Prod.fst ↔ ∃ s2 s3, keysOf wM.rows = s2 ++ 2 :: s3 ∧ 0 ∈ s2)) :=
  ⟨rfl, claim_C6.1 sibTree wEls wM rfl, rfl,
    claim_C6.2.1 wM wM2 0 1 ⟨by decide, by decide, by decide, by decide⟩
      (by decide) (by decide) (by decide) rfl,
    claim_C6.2.2 wM ⟨by decide, by decide, by decide, by decide⟩ 2 0
      (by decide) (by decide) (by decide)⟩

/-!  The `closest()` scan (claims C7 and C9).  -/

/-- The fold of the `min` helper keeps the first minimal element: the
scan splits around the result, with strictly larger keys before it and
no smaller key after it. -/
theorem minEntry_split (l : List (Nat × Nat × Nat)) :
    ∀ cur, ∃ p1 p2, cur :: l = p1 ++ minEntry cur l :: p2 ∧
      (∀ e ∈ p1, (minEntry cur l).2.2 < e.2.2) ∧
      (∀ e ∈ p2, (minEntry cur l).2.2 ≤ e.2.2) := by
  induction l with
  | nil => intro cur; exact ⟨[], [], rfl, by simp, by simp⟩
  | cons e rest ih =>
    intro cur
    rw [minEntry]
    by_cases hlt : e.2.2 < cur.2.2
    · rw [if_pos hlt]
      obtain ⟨p1, p2, hdec, hpre, hpost⟩ := ih e
      refine ⟨cur :: p1, p2, by rw [List.cons_append, ← hdec], ?_, hpost⟩
      intro f hf
      rcases List.mem_cons.1 hf with h1 | h1
      · subst h1
        cases p1 with
        | nil =>
          rw [List.nil_append, List.cons.injEq] at hdec
          rw [← hdec.1]
          exact hlt
        | cons c p1x =>
          rw [List.cons_append, List.cons.injEq] at hdec
          have h2 := hpre e (by rw [hdec.1]; exact List.mem_cons_self _ _)
          exact lt_trans h2 hlt
      · exact hpre f h1
    · rw [if_neg hlt]
      obtain ⟨p1, p2, hdec, hpre, hpost⟩ := ih cur
      cases p1 with
      | nil =>
        rw [List.nil_append, List.cons.injEq] at hdec
        refine ⟨[], e :: rest, by rw [List.nil_append, ← hdec.1], by simp, ?_⟩
        intro f hf
        rcases List.mem_cons.1 hf with h1 | h1
        · subst h1
          rw [← hdec.1]
          omega
        · rw [← hdec.1]
          exact hdec.1 ▸ hpost f (hdec.2 ▸ h1)
      | cons c p1x =>
        rw [List.cons_append, List.cons.injEq] at hdec
        refine ⟨cur :: e :: p1x, p2, ?_, ?_, hpost⟩
        · rw [List.cons_append, List.cons_append, ← hdec.2]
        · intro f hf
          have hcc := hpre cur (by rw [hdec.1]; exact List.mem_cons_self _ _)
          rcases List.mem_cons.1 hf with h1 | h1
          · rw [h1]
            exact hcc
          · rcases List.mem_cons.1 h1 with h2 | h2
            · rw [h2]
              omega
            · exact hpre f (List.mem_cons_of_mem _ h2)

theorem entries_ne_nil {m : DM} (hwf : WFDM m) (h2 : 2 ≤ m.nclusters) :
    entriesOf m.rows ≠ [] := by
  have hE := (wf_entriesCount hwf).1
  intro hc
  have hmul : m.nclusters * 2 ≤ m.nclusters * m.nclusters :=
    Nat.mul_le_mul_left _ h2
  rw [entriesCount, hc] at hE
  simp only [List.length_nil, Nat.mul_zero, Nat.zero_add] at hE
  omega

/-- `closest()` on a well-formed matrix with at least two live clusters:
it returns the first entry of minimal stored distance in scan order. -/
theorem closest_spec {m : DM} (hwf : WFDM m) (h2 : 2 ≤ m.nclusters) :
    ∃ e p1 p2, closestDM m = some e ∧ entriesOf m.rows = p1 ++ e :: p2 ∧
      (∀ f ∈ p1, e.2.2 < f.2.2) ∧ (∀ f ∈ p2, e.2.2 ≤ f.2.2) := by
  have hne := entries_ne_nil hwf h2
  cases hE : entriesOf m.rows with
  | nil => exact absurd hE hne
  | cons e0 rest =>
    obtain ⟨p1, p2, hdec, hpre, hpost⟩ := minEntry_split rest e0
    refine ⟨minEntry e0 rest, p1, p2, ?_, hdec, hpre, hpost⟩
    rw [closestDM, if_neg (by omega), hE, minByKey]

theorem entriesOf_mem : ∀ {rows : List (Nat × Row)} {e : Nat × Nat × Nat},
    e ∈ entriesOf rows → ∃ r, (e.1, r) ∈ rows ∧ (e.2.1, e.2.2) ∈ r := by
  intro rows
  induction rows with
  | nil => intro e he; simp [entriesOf] at he
  | cons p rest ih =>
    intro e he
    obtain ⟨h0, r0⟩ := p
    rw [entriesOf] at he
    rcases List.mem_append.1 he with h1 | h1
    · obtain ⟨en, hen, heq⟩ := List.mem_map.1 h1
      refine ⟨r0, ?_, ?_⟩
      · rw [← heq]
        exact List.mem_cons_self _ _
      · rw [← heq]
        simpa using hen
    · obtain ⟨r, hr1, hr2⟩ := ih h1
      exact ⟨r, List.mem_cons_of_mem _ hr1, hr2⟩

/-- Any entry `closest()` returns names two distinct live clusters. -/
theorem closest_live {m : DM} (hwf : WFDM m) {e : Nat × Nat × Nat}
    (hcl : closestDM m = some e) :
    e.1 ∈ keysOf m.rows ∧ e.2.1 ∈ keysOf m.rows ∧ e.1 ≠ e.2.1 := by
  have hmem : e ∈ entriesOf m.rows := by
    rw [closestDM] at hcl
    by_cases h2 : m.nclusters < 2
    · rw [if_pos h2] at hcl
      simp at hcl
    · rw [if_neg h2] at hcl
      cases hE : entriesOf m.rows with
      | nil => rw [hE, minByKey] at hcl; simp at hcl
      | cons e0 rest =>
        rw [hE, minByKey, Option.some_inj] at hcl
        obtain ⟨p1, p2, hdec, _, _⟩ := minEntry_split rest e0
        rw [hdec, ← hcl]
        exact List.mem_append_right _ (List.mem_cons_self _ _)
  obtain ⟨r, hr1, hr2⟩ := entriesOf_mem hmem
  have hk1 : e.1 ∈ keysOf m.rows := List.mem_map.2 ⟨(e.1, r), hr1, rfl⟩
  have hkin : e.2.1 ∈ r.map Prod.fst := List.mem_map.2 ⟨(e.2.1, e.2.2), hr2, rfl⟩
  refine ⟨hk1, tri_inner_sub hwf.tri hr1 hkin, ?_⟩
  obtain ⟨s2, s3, hkeys, hrk⟩ := tri_mem_decomp hwf.tri hr1
  rw [List.nil_append] at hrk
  rw [hrk] at hkin
  intro hc
  have hd := hwf.nodup
  rw [hkeys] at hd
  have h2 := List.nodup_cons.1 (List.nodup_middle.1 hd)
  exact h2.1 (List.mem_append_left _ (hc ▸ hkin))

/-- Claim C7: whenever at least two clusters are live on a well-formed
matrix, `closest()` returns a stored entry whose distance is the minimum
over all stored entries, and among equal minima it is the first entry in
scan order (rows in insertion order, inner entries in insertion order —
the order of `entriesOf`). -/
theorem claim_C7 (m : DM) (hwf : WFDM m) (h2 : 2 ≤ m.nclusters) :
    ∃ e p1 p2, closestDM m = some e ∧
      entriesOf m.rows = p1 ++ e :: p2 ∧
      (∀ f ∈ entriesOf m.rows, e.2.2 ≤ f.2.2) ∧
      (∀ f ∈ p1, e.2.2 < f.2.2) ∧ (∀ f ∈ p2, e.2.2 ≤ f.2.2) := by
  obtain ⟨e, p1, p2, hcl, hdec, hpre, hpost⟩ := closest_spec hwf h2
  refine ⟨e, p1, p2, hcl, hdec, ?_, hpre, hpost⟩
  intro f hf
  rw [hdec] at hf
  rcases List.mem_append.1 hf with h1 | h1
  · exact le_of_lt (hpre f h1)
  · rcases List.mem_cons.1 h1 with h1 | h1
    · rw [h1]
    · exact hpost f h1

/-- Witness for claim C7 at a concrete input: the 3-cluster matrix over
the paragraphs of `sibTree`. -/
theorem claim_C7_witness :
    2 ≤ wM.nclusters ∧
      (∃ e p1 p2, closestDM wM = some e ∧
        entriesOf wM.rows = p1 ++ e :: p2 ∧
        (∀ f ∈ entriesOf wM.rows, e.2.2 ≤ f.2.2) ∧
        (∀ f ∈ p1, e.2.2 < f.2.2) ∧ (∀ f ∈ p2, e.2.2 ≤ f.2.2)) :=
  ⟨by decide,
    claim_C7 wM ⟨by decide, by decide, by decide, by decide⟩ (by decide)⟩

/-!  The driver loop (claims C9 and C4).  -/

/-- Claim C9: `closest()` fails exactly when fewer than two clusters are
live, and the driver's loop never triggers that failure: on any
well-formed matrix the loop always completes (its guard
`numClusters() > 1` protects every `closest()` call, and each merge it
performs preserves well-formedness). -/
theorem claim_C9 :
    (∀ m : DM, WFDM m → (closestDM m = none ↔ m.nclusters < 2)) ∧
    (∀ (fuel : Nat) (m : DM) (tooFar : WithTop Nat), WFDM m →
      (clusterLoop fuel m tooFar).isSome = true) := by
  constructor
  · intro m hwf
    constructor
    · intro hcl
      by_contra hlt
      obtain ⟨e, _, _, hsome, _, _, _⟩ := closest_spec hwf (by omega)
      rw [hsome] at hcl
      simp at hcl
    · intro hlt
      rw [closestDM, if_pos hlt]
  · intro fuel
    induction fuel with
    | zero =>
      intro m tf hwf
      rfl
    | succ f ih =>
      intro m tf hwf
      by_cases h1 : 1 < m.nclusters
      · obtain ⟨e, p1, p2, hcl, _, _, _⟩ := closest_spec hwf (by omega)
        have hstep : clusterLoop (f + 1) m tf =
            (if (e.2.2 : WithTop Nat) < tf then
              match mergeDM m e.1 e.2.1 with
              | none => none
              | some m2 => clusterLoop f m2 tf
            else some m) := by
          rw [clusterLoop, if_pos h1, hcl]
        rw [hstep]
        by_cases h2 : (e.2.2 : WithTop Nat) < tf
        · rw [if_pos h2]
          obtain ⟨hl1, hl2, hne⟩ := closest_live hwf hcl
          obtain ⟨m2, nr, hmerge, _, _, _, _, _, _, hwf2⟩ :=
            mergeDM_wf hwf hl1 hl2 hne
          rw [hmerge]
          exact ih m2 tf hwf2
        · rw [if_neg h2]
          rfl
      · rw [clusterLoop, if_neg h1]
        rfl

/-- Witness for claim C9 at a concrete input: the 3-cluster matrix over
the paragraphs of `sibTree`. -/
theorem claim_C9_witness :
    (closestDM wM = none ↔ wM.nclusters < 2) ∧
      (clusterLoop 3 wM ⊤).isSome = true :=
  ⟨claim_C9.1 wM ⟨by decide, by decide, by decide, by decide⟩,
    claim_C9.2 3 wM ⊤ ⟨by decide, by decide, by decide, by decide⟩⟩

/-- The constructed matrix covers every input node. -/
theorem initMatrix_inv {t : Dom} {els : List Path} {m : DM}
    (h : initMatrix t els = some m) : INVC els m := by
  obtain ⟨hwf, hkeys, hncl, harena⟩ := initMatrix_wf h
  intro p hp
  obtain ⟨i, hi, hget⟩ := List.mem_iff_getElem.1 hp
  have hik : i ∈ keysOf m.rows := by
    rw [hkeys, List.mem_range'_1]
    omega
  obtain ⟨⟨i2, r⟩, hmem, hfst⟩ := List.mem_map.1 hik
  rw [show i2 = i from hfst] at hmem
  refine ⟨flattenJC (JCluster.leaf p), ?_, by simp [flattenJC]⟩
  rw [clustersOf]
  apply List.mem_map.2
  refine ⟨(i, r), hmem, ?_⟩
  have hga : m.arena[i]? = some (JCluster.leaf p) := by
    rw [harena, List.getElem?_map, List.getElem?_eq_getElem hi, hget]
    rfl
  rw [hga]

/-- Merging two distinct live clusters preserves node coverage. -/
theorem mergeDM_inv {els : List Path} {m m2 : DM} {a b : Nat} {nr : Row}
    (hwf : WFDM m)
    (hrows : m2.rows = ((aerase (aerase m.rows a) b).map
      (fun kr => (kr.1, aerase (aerase kr.2 a) b))) ++ [(m.arena.length, nr)])
    (harena : ∃ ca cb, m.arena[a]? = some ca ∧ m.arena[b]? = some cb ∧
      m2.arena = m.arena ++ [JCluster.pair ca cb])
    (hinv : INVC els m) : INVC els m2 := by
  obtain ⟨ca, cb, hga, hgb, harena2⟩ := harena
  intro p hp
  obtain ⟨c, hcmem, hpc⟩ := hinv p hp
  rw [clustersOf] at hcmem
  obtain ⟨⟨k, r⟩, hkr, hc⟩ := List.mem_map.1 hcmem
  have hknew : m2.arena[m.arena.length]? = some (JCluster.pair ca cb) := by
    rw [harena2]
    exact List.getElem?_concat_length _ _
  by_cases hka : k = a
  · refine ⟨flattenJC (JCluster.pair ca cb), ?_, ?_⟩
    · rw [clustersOf]
      apply List.mem_map.2
      refine ⟨(m.arena.length, nr), ?_, by rw [hknew]⟩
      rw [hrows]
      exact List.mem_append_right _ (List.mem_cons_self _ _)
    · rw [flattenJC]
      apply List.mem_append_left
      have : c = flattenJC ca := by
        rw [← hc, hka, hga]
      rw [← this]
      exact hpc
  · by_cases hkb : k = b
    · refine ⟨flattenJC (JCluster.pair ca cb), ?_, ?_⟩
      · rw [clustersOf]
        apply List.mem_map.2
        refine ⟨(m.arena.length, nr), ?_, by rw [hknew]⟩
        rw [hrows]
        exact List.mem_append_right _ (List.mem_cons_self _ _)
      · rw [flattenJC]
        apply List.mem_append_right
        have : c = flattenJC cb := by
          rw [← hc, hkb, hgb]
        rw [← this]
        exact hpc
    · have hkk : k ∈ keysOf m.rows := List.mem_map.2 ⟨(k, r), hkr, rfl⟩
      have hkv : k < m.arena.length := hwf.valid k hkk
      have hmem2 : (k, aerase (aerase r a) b) ∈ m2.rows := by
        rw [hrows]
        apply List.mem_append_left
        apply List.mem_map.2
        refine ⟨(k, r), ?_, rfl⟩
        exact mem_aerase_of_mem (mem_aerase_of_mem hkr hka) hkb
      refine ⟨c, ?_, hpc⟩
      rw [clustersOf]
      apply List.mem_map.2
      refine ⟨(k, aerase (aerase r a) b), hmem2, ?_⟩
      have hsame : m2.arena[k]? = m.arena[k]? := by
        rw [harena2]
        exact List.getElem?_append_left hkv
      rw [hsame, ← hc]

/-- With `tooFar = ⊤` the loop runs down to exactly one cluster,
preserving well-formedness and node coverage. -/
theorem clusterLoop_total {els : List Path} :
    ∀ (fuel : Nat) (m : DM), WFDM m → INVC els m → 1 ≤ m.nclusters →
      m.nclusters ≤ fuel + 1 →
      ∃ m2, clusterLoop fuel m ⊤ = some m2 ∧ WFDM m2 ∧ INVC els m2 ∧
        m2.nclusters = 1 := by
  intro fuel
  induction fuel with
  | zero =>
    intro m hwf hinv h1 hle
    refine ⟨m, rfl, hwf, hinv, by omega⟩
  | succ f ih =>
    intro m hwf hinv h1 hle
    by_cases hgt : 1 < m.nclusters
    · obtain ⟨e, p1, p2, hcl, _, _, _⟩ := closest_spec hwf (by omega)
      have hstep : clusterLoop (f + 1) m ⊤ =
          (if (e.2.2 : WithTop Nat) < ⊤ then
            match mergeDM m e.1 e.2.1 with
            | none => none
            | some m2 => clusterLoop f m2 ⊤
          else some m) := by
        rw [clusterLoop, if_pos hgt, hcl]
      obtain ⟨hl1, hl2, hne⟩ := closest_live hwf hcl
      obtain ⟨m3, nr, hmerge, _, hrows, harena, hncl, _, h2le, hwf3⟩ :=
        mergeDM_wf hwf hl1 hl2 hne
      have hinv3 : INVC els m3 := mergeDM_inv hwf hrows harena hinv
      obtain ⟨m2, hloop, hwf2, hinv2, hone⟩ :=
        ih m3 hwf3 hinv3 (by omega) (by omega)
      refine ⟨m2, ?_, hwf2, hinv2, hone⟩
      have hlt2 : (e.2.2 : WithTop Nat) < ⊤ := WithTop.coe_lt_top _
      rw [hstep, if_pos hlt2, hmerge]
      exact hloop
    · refine ⟨m, ?_, hwf, hinv, by omega⟩
      rw [clusterLoop, if_neg hgt]

/-- Claim C4 counterexample: on the empty input sequence the driver
returns zero clusters, not one. -/
theorem claim_C4_counterexample :
    clustersRun pairTree [] ⊤ = some [] ∧
      ¬∃ c : List Path, clustersRun pairTree [] ⊤ = some [c] := by
  refine ⟨rfl, ?_⟩
  rintro ⟨c, hc⟩
  rw [show clustersRun pairTree [] ⊤ = some [] from rfl, Option.some_inj] at hc
  exact absurd hc (by simp)

/-- Claim C4 as amended: for every nonempty input sequence on which the
construction does not crash (the run returns at all),
`clusters(nodes, Infinity)` returns exactly one cluster, and that
cluster contains all input nodes. -/
theorem claim_C4 (t : Dom) (els : List Path) (out : List (List Path))
    (hne : els ≠ []) (h : clustersRun t els ⊤ = some out) :
    ∃ c, out = [c] ∧ ∀ p ∈ els, p ∈ c := by
  rw [clustersRun] at h
  cases him : initMatrix t els with
  | none => rw [him] at h; simp at h
  | some m0 =>
    rw [him] at h
    obtain ⟨hwf0, hkeys0, hncl0, _⟩ := initMatrix_wf him
    have hinv0 : INVC els m0 := initMatrix_inv him
    have h1 : 1 ≤ m0.nclusters := by
      rw [hncl0]
      exact List.length_pos.2 hne
    have hfuel : m0.nclusters ≤ els.length + 1 := by
      rw [hncl0]
      omega
    obtain ⟨m2, hloop, hwf2, hinv2, hone⟩ :=
      clusterLoop_total els.length m0 hwf0 hinv0 h1 hfuel
    have h2 : (match clusterLoop els.length m0 ⊤ with
               | none => none
               | some mz => some (clustersOf mz)) = some out := h
    rw [hloop, Option.some_inj] at h2
    have hrlen : m2.rows.length = 1 := by
      have := hwf2.count
      omega
    obtain ⟨kr, hkr⟩ := List.length_eq_one.1 hrlen
    refine ⟨(match m2.arena[kr.1]? with
             | some c => flattenJC c
             | none => []), ?_, ?_⟩
    · rw [← h2, clustersOf, hkr]
      rfl
    · intro p hp
      obtain ⟨c, hcmem, hpc⟩ := hinv2 p hp
      rw [clustersOf, hkr] at hcmem
      rw [List.map_singleton, List.mem_singleton] at hcmem
      rw [← hcmem]
      exact hpc

/-- Witness for claim C4 at a concrete input: the three paragraphs of
`sibTree` all end up in the single returned cluster. -/
theorem claim_C4_witness :
    wEls ≠ [] ∧ clustersRun sibTree wEls ⊤ = some [[[1], [0], [2]]] ∧
      ∃ c, [[[1], [0], [2]]] = [c] ∧ ∀ p ∈ wEls, p ∈ c :=
  ⟨by decide, rfl, claim_C4 sibTree wEls [[[1], [0], [2]]] (by decide) rfl⟩

/-- Claim C8: `numStrides(left, right)` counts the non-skippable nodes
the forward walk visits (stopping on reaching `right` — possible exactly
when `right` is a sibling of `left` at the same or a later index — or on
running out of siblings), and exactly when the forward walk does not land
on `right` it additionally counts every non-skippable node on the
backward walk from `right` to the start of its sibling list; when the
forward walk reaches `right` the backward walk contributes nothing. -/
theorem claim_C8 (t : Dom) (ql qr : Path) (tgl tgr : String) (wl wr : Bool)
    (csl csr : List Dom)
    (hsubl : subtree t ql = some (.node tgl wl csl))
    (hsubr : subtree t qr = some (.node tgr wr csr))
    (i j : Nat) (hi : i < csl.length) (hj : j < csr.length) :
    numStrides t (some (i :: ql)) (some (j :: qr)) =
      (if ql = qr ∧ i ≤ j then fwdBetween csl i j else fwdToEnd csl i) +
        (if ql = qr ∧ i ≤ j then 0 else bwdBefore csr j) := by
  by_cases hq : ql = qr
  · subst hq
    rw [hsubl] at hsubr
    rw [Option.some_inj, Dom.node.injEq] at hsubr
    obtain ⟨htg, hw, hcs⟩ := hsubr
    subst hcs
    have hns := numStrides_same_parent t ql tgl wl csl hsubl i j hj
    by_cases hij : i ≤ j
    · rw [hns, if_pos hij]
      simp [hij]
    · rw [hns, if_neg hij]
      simp [hij]
  · have hns := numStrides_diff_parent t ql qr tgl tgr wl wr csl csr hsubl hsubr i j hq
    rw [hns]
    have hcond : ¬(ql = qr ∧ i ≤ j) := fun hc => hq hc.1
    rw [if_neg hcond, if_neg hcond]

/-- Witness for claim C8 at a concrete input: the outer (index 0) and
last (index 2) paragraphs of `sibTree`, with one non-whitespace sibling
between them. -/
theorem claim_C8_witness :
    subtree sibTree [] =
        some (.node "DIV" false
          [.node "P" false [], .node "P" false [], .node "P" false []]) ∧
      numStrides sibTree (some [0]) (some [2]) =
        (if ([] : Path) = [] ∧ 0 ≤ 2
         then fwdBetween
           [Dom.node "P" false [], Dom.node "P" false [], Dom.node "P" false []] 0 2
         else fwdToEnd
           [Dom.node "P" false [], Dom.node "P" false [], Dom.node "P" false []] 0) +
        (if ([] : Path) = [] ∧ 0 ≤ 2 then 0
         else bwdBefore
           [Dom.node "P" false [], Dom.node "P" false [], Dom.node "P" false []] 2) :=
  ⟨rfl,
    claim_C8 sibTree [] [] "DIV" "DIV" false false
      [Dom.node "P" false [], Dom.node "P" false [], Dom.node "P" false []]
      [Dom.node "P" false [], Dom.node "P" false [], Dom.node "P" false []]
      rfl rfl 0 2 (by decide) (by decide)⟩

end Fathom
